import Mathlib

/-!
Verification of the tfdc bulk-export pipeline (`internal/provider/path.go`,
`internal/provider/export.go`, `internal/registry/client.go`, with the cache
store in `internal/cache`) against its design specification.

Modelling conventions:
* Go strings are modelled as `Str := List Char`.  Byte-wise lexicographic
  comparison of UTF-8 Go strings coincides with code-point lexicographic
  comparison, which is the order on `List Char`.
* The host is Unix: `os.PathSeparator = '/'`, `filepath.ToSlash` is the
  identity.
* `strings.ToLower` / `strings.TrimSpace` are modelled on their ASCII
  behaviour (`unicode` case folding of non-ASCII letters produces characters
  that the sanitizer replaces anyway, so the modelled invariants are not
  affected).
* Filesystem reads (`os.Lstat`) are a pure oracle `Str → LstatRes`; filesystem
  writes are recorded as events rather than performed.
* Network I/O is an oracle threaded as explicit state, with every request
  recorded as an event.
-/

/-- Go strings, modelled as lists of characters. -/
abbrev Str := List Char

/-- Embed a Lean string literal as a `Str`. -/
def str (s : String) : Str := s.data

/-- The path separator on Unix (`os.PathSeparator`). -/
def pathSep : Char := '/'

/-- `strings.Split` for a single-character separator. -/
def splitOnChar (sep : Char) (s : Str) : List Str :=
  s.foldr
    (fun c acc =>
      match acc with
      | [] => [[c]]
      | g :: gs => if c = sep then [] :: g :: gs else (c :: g) :: gs)
    [[]]

/-- Join a list of strings with a separator character (inverse of split). -/
def joinSep (sep : Char) : List Str → Str
  | [] => []
  | [x] => x
  | x :: y :: xs => x ++ sep :: joinSep sep (y :: xs)

/-- One step of Go `filepath.Clean`'s element processing: `.` and empty
elements are dropped, `..` pops a previous element (or is kept/dropped at the
front depending on rootedness), everything else is kept. -/
def cleanStep (rooted : Bool) (out : List Str) (seg : Str) : List Str :=
  if seg = [] ∨ seg = ['.'] then out
  else if seg = ['.', '.'] then
    if out ≠ [] ∧ out.getLast? ≠ some ['.', '.'] then out.dropLast
    else if rooted then out
    else out ++ [['.', '.']]
  else out ++ [seg]

/-- Element processing of Go `filepath.Clean` over the split segments. -/
def cleanSegs (rooted : Bool) (segs : List Str) : List Str :=
  segs.foldl (cleanStep rooted) []

/-- Go `filepath.IsAbs` on Unix. -/
def isAbs (p : Str) : Bool := p.head? = some pathSep

/-- Go `filepath.Clean` on Unix. -/
def pathClean (p : Str) : Str :=
  if p = [] then ['.']
  else
    let rooted := isAbs p
    let segs := cleanSegs rooted (splitOnChar pathSep p)
    if rooted then pathSep :: joinSep pathSep segs
    else if segs = [] then ['.']
    else joinSep pathSep segs

/-- Go `filepath.Join` of two elements: empty elements are dropped, the rest
joined with the separator, and the result cleaned (`Join()` of no non-empty
elements is the empty string). -/
def pathJoin2 (a b : Str) : Str :=
  if a = [] ∧ b = [] then []
  else if a = [] then pathClean b
  else if b = [] then pathClean a
  else pathClean (a ++ pathSep :: b)

/-- Go `filepath.Join` of a list of elements. -/
def pathJoinList (l : List Str) : Str :=
  if (l.filter (· ≠ [])) = [] then []
  else pathClean (joinSep pathSep (l.filter (· ≠ [])))

/-- Go `filepath.Abs` with the working directory made explicit (`os.Getwd`
errors are not modelled; the working directory is an absolute path given to
the model). -/
def pathAbs (cwd p : Str) : Str :=
  if isAbs p then pathClean p else pathJoin2 cwd p

/-- Go `filepath.Dir`: everything up to (and including) the final separator,
then cleaned; `.` when there is no separator. -/
def pathDir (p : Str) : Str :=
  pathClean ((p.reverse.dropWhile (· ≠ pathSep)).reverse)

/-- Strip the longest common segment prefix of two segment lists, returning
the two remainders (the core of Go `filepath.Rel`'s scanning loop). -/
def stripCommon : List Str → List Str → List Str × List Str
  | b :: bs, t :: ts =>
    if b = t then stripCommon bs ts else (b :: bs, t :: ts)
  | bs, ts => (bs, ts)

/-- The segments of a cleaned path (Go `filepath.Rel` treats a base of `.` as
having no segments; for absolute paths the leading empty segment is dropped). -/
def relSegsOf (cleaned : Str) : List Str :=
  if cleaned = ['.'] then []
  else (splitOnChar pathSep cleaned).filter (· ≠ [])

/-- Go `filepath.Rel` on Unix.  `none` models the error return. -/
def pathRel (base targ : Str) : Option Str :=
  let b := pathClean base
  let t := pathClean targ
  if b = t then some ['.']
  else if isAbs b ≠ isAbs t then none
  else
    let (brem, trem) := stripCommon (relSegsOf b) (relSegsOf t)
    if brem.head? = some ['.', '.'] then none
    else
      let segs := brem.map (fun _ => ['.', '.']) ++ trem
      if segs = [] then some ['.']
      else some (joinSep pathSep segs)

/-- Go `filepath.ToSlash` (identity on Unix). -/
def toSlash (p : Str) : Str := p

/-! ### The placeholder regular expression

`rePlaceholder = \x7b[^\x7b\x7d]+\x7d`.  `scanTemplate` reproduces
`FindAllStringIndex`'s leftmost, non-overlapping matching as a decomposition
of the template into literal chunks and placeholder keys. -/

/-- The opening brace character. -/
def lbrace : Char := Char.ofNat 123

/-- The closing brace character. -/
def rbrace : Char := Char.ofNat 125

/-- A chunk of a path template: literal text, or a `\x7bkey\x7d` placeholder. -/
inductive Chunk where
  | lit (s : Str)
  | ph (key : Str)
deriving DecidableEq, Repr

theorem dropWhile_length_le (p : Char → Bool) (l : Str) :
    (l.dropWhile p).length ≤ l.length := by
  induction l with
  | nil => simp
  | cons c r ih =>
    by_cases h : p c <;> simp [List.dropWhile, h] <;> omega

/-- Leftmost scanning of the `rePlaceholder` regular expression, as a state
machine over the input: `acc` is the pending literal text before the next
match; `cand = some k` means a `\x7b` has been seen and `k` is the candidate
key text read so far (all of it brace-free).  A closing brace after a
non-empty key completes a match; a closing brace right after the opening one
(`\x7b\x7d`) is not a match (`[^...]+` needs at least one character); a second
opening brace abandons the candidate, which becomes literal text, and starts a
new candidate (no match can start inside the brace-free candidate text). -/
def scanAux (acc : Str) : Option Str → Str → List Chunk
  | none, [] => [.lit acc]
  | some k, [] => [.lit (acc ++ lbrace :: k)]
  | none, c :: r =>
    if c = lbrace then scanAux acc (some []) r
    else scanAux (acc ++ [c]) none r
  | some k, c :: r =>
    if c = rbrace then
      if k = [] then scanAux (acc ++ [lbrace, rbrace]) none r
      else .lit acc :: .ph k :: scanAux [] none r
    else if c = lbrace then scanAux (acc ++ lbrace :: k) (some []) r
    else scanAux acc (some (k ++ [c])) r

/-- The chunk decomposition of a template under `rePlaceholder`. -/
def scanTemplate (t : Str) : List Chunk := scanAux [] none t

/-- The template with every `rePlaceholder` match removed
(`rePlaceholder.ReplaceAllString(template, "")`). -/
def templateLeftover (t : Str) : Str :=
  (scanTemplate t).foldr
    (fun c acc => match c with | .lit s => s ++ acc | .ph _ => acc) []

/-- `validatePathTemplateSyntax` (path.go): after removing all well-formed
placeholders, no stray brace may remain. -/
def validatePathTemplateSyntax (t : Str) : Except Str Unit :=
  if (templateLeftover t).any (fun c => c = lbrace ∨ c = rbrace) then
    .error (str "invalid placeholder syntax in path template")
  else .ok ()

/-- Substitution of the scanned chunks: literals are copied, placeholders are
looked up (failing on the first unresolved one); replacement values are copied
verbatim and never re-scanned. -/
def renderChunks (vars : Str → Option Str) : List Chunk → Except Str Str
  | [] => .ok []
  | .lit s :: rest => (renderChunks vars rest).map (s ++ ·)
  | .ph k :: rest =>
    match vars k with
    | none => .error (str "unresolved placeholder in path template: " ++ lbrace :: k ++ [rbrace])
    | some v => (renderChunks vars rest).map (v ++ ·)

/-- `renderPathTemplate` (path.go): single left-to-right substitution pass. -/
def renderPathTemplate (t : Str) (vars : Str → Option Str) : Except Str Str :=
  match validatePathTemplateSyntax t with
  | .error e => .error e
  | .ok _ => renderChunks vars (scanTemplate t)

/-! ### Filesystem oracle and the symlink guards (path.go) -/

/-- The result of `os.Lstat` on one path: missing, failing, a symlink, or any
other (non-symlink) file/directory. -/
inductive LstatRes where
  | notExist
  | statError
  | symlink
  | other
deriving DecidableEq, Repr

/-- A read-only view of the filesystem, as consulted by the guards. -/
abbrev Lstat := Str → LstatRes

/-- `rejectSymlinkIfExists` (path.go): a missing path is fine, a symlink (or a
failing `Lstat`) is an error. -/
def rejectSymlinkIfExists (fs : Lstat) (p : Str) : Except Str Unit :=
  match fs p with
  | .notExist => .ok ()
  | .statError => .error (str "lstat failed: " ++ p)
  | .symlink => .error (str "symlink component detected: " ++ p)
  | .other => .ok ()

/-- `isPathWithinDir` (path.go): lexical containment via `filepath.Rel`. -/
def isPathWithinDir (baseAbs targAbs : Str) : Bool :=
  match pathRel baseAbs targAbs with
  | none => false
  | some rel =>
    rel = ['.'] ∨ (rel ≠ ['.', '.'] ∧ ¬ (['.', '.', pathSep].isPrefixOf rel))

/-- The chain `p, Dir p, Dir (Dir p), …` down to the fixed point, with explicit
fuel (the Go loop always terminates because `Dir` reaches `/` or `.`). -/
def ancestorChainAux : Nat → Str → List Str
  | 0, p => [p]
  | n + 1, p =>
    let parent := pathDir p
    if parent = p then [p] else p :: ancestorChainAux n parent

/-- The `prefixes` slice built by `rejectSymlinkInAncestors` (deepest first,
filesystem root last). -/
def ancestorChain (p : Str) : List Str := ancestorChainAux (p.length + 2) p

/-- Sequentially check a list of paths with `rejectSymlinkIfExists`. -/
def checkChain (fs : Lstat) : List Str → Except Str Unit
  | [] => .ok ()
  | p :: rest =>
    match rejectSymlinkIfExists fs p with
    | .error e => .error e
    | .ok _ => checkChain fs rest

/-- `rejectSymlinkInAncestors` (path.go): walk the ancestors of `path` from the
root down, skipping the root and its immediate child (depth ≤ 1), rejecting any
symlink found. -/
def rejectSymlinkInAncestors (fs : Lstat) (path : Str) : Except Str Unit :=
  let prefixes := ancestorChain (pathClean path)
  checkChain fs ((prefixes.take (prefixes.length - 2)).reverse)

/-- The per-segment walk of `ensureNoSymlinkTraversal`: extend `current` by
each segment of the relative remainder, rejecting symlinks along the way. -/
def walkSegs (fs : Lstat) (current : Str) : List Str → Except Str Unit
  | [] => .ok ()
  | seg :: rest =>
    if seg = [] ∨ seg = ['.'] then walkSegs fs current rest
    else
      let next := pathJoin2 current seg
      match rejectSymlinkIfExists fs next with
      | .error e => .error e
      | .ok _ => walkSegs fs next rest

/-- `ensureNoSymlinkTraversal` (path.go). -/
def ensureNoSymlinkTraversal (fs : Lstat) (baseAbs targAbs : Str) : Except Str Unit :=
  if ¬ isPathWithinDir baseAbs targAbs then
    .error (str "target is outside base dir: " ++ targAbs)
  else
    match rejectSymlinkInAncestors fs baseAbs with
    | .error e => .error e
    | .ok _ =>
      match pathRel baseAbs targAbs with
      | none => .error (str "rel failed: " ++ targAbs)
      | some rel =>
        if rel = ['.'] then .ok ()
        else walkSegs fs baseAbs (splitOnChar pathSep rel)

/-- `resolvePathWithinBase` (path.go): clean, anchor a relative path at the
base, and make absolute. -/
def resolvePathWithinBase (cwd path baseAbs : Str) : Str :=
  let cleaned := pathClean path
  let anchored := if isAbs cleaned then cleaned else pathJoin2 baseAbs cleaned
  pathAbs cwd anchored

/-- `BuildOutputPath` (path.go): render the template, resolve against the
output directory, and refuse paths that leave it (lexically or through a
symlink). -/
def BuildOutputPath (fs : Lstat) (cwd : Str) (template : Str)
    (vars : Str → Option Str) (outDir : Str) : Except Str Str :=
  match renderPathTemplate template vars with
  | .error e => .error e
  | .ok result =>
    let outAbs := pathAbs cwd outDir
    let resolved := resolvePathWithinBase cwd result outAbs
    if ¬ isPathWithinDir outAbs resolved then
      .error (str "output path is outside -out-dir: " ++ resolved)
    else
      match ensureNoSymlinkTraversal fs outAbs resolved with
      | .error e => .error (str "output path crosses symlink outside -out-dir: " ++ e)
      | .ok _ => .ok resolved

/-! ### `sanitizeSegment` and `extensionForFormat` (path.go) -/

/-- ASCII lower-casing of one character (model of `strings.ToLower`). -/
def charToLowerAscii (c : Char) : Char :=
  if 65 ≤ c.toNat ∧ c.toNat ≤ 90 then Char.ofNat (c.toNat + 32) else c

/-- Model of `strings.ToLower` (ASCII; see the header note). -/
def toLowerStr (s : Str) : Str := s.map charToLowerAscii

/-- ASCII whitespace (model of `unicode.IsSpace` for `strings.TrimSpace`). -/
def isSpaceChar (c : Char) : Bool :=
  c = ' ' ∨ c = '\t' ∨ c = '\n' ∨ c = '\x0d' ∨ c = '\x0b' ∨ c = '\x0c'

/-- Model of `strings.TrimSpace`. -/
def trimSpace (s : Str) : Str :=
  ((s.dropWhile isSpaceChar).reverse.dropWhile isSpaceChar).reverse

/-- `strings.Trim` with a character cut-set. -/
def trimCutset (cut : List Char) (s : Str) : Str :=
  ((s.dropWhile (· ∈ cut)).reverse.dropWhile (· ∈ cut)).reverse

/-- The character class `[a-zA-Z0-9._-]` of `reInvalidSegment`'s complement. -/
def validSegChar (c : Char) : Bool :=
  (97 ≤ c.toNat ∧ c.toNat ≤ 122) ∨ (65 ≤ c.toNat ∧ c.toNat ≤ 90) ∨
    (48 ≤ c.toNat ∧ c.toNat ≤ 57) ∨ c = '.' ∨ c = '_' ∨ c = '-'

/-- `reInvalidSegment.ReplaceAllString(s, "-")`: each maximal run of characters
outside `[a-zA-Z0-9._-]` becomes a single `-`.  `inRun` records whether the
previous character was part of an invalid run already replaced. -/
def replaceInvalidAux (inRun : Bool) : Str → Str
  | [] => []
  | c :: rest =>
    if validSegChar c then c :: replaceInvalidAux false rest
    else if inRun then replaceInvalidAux true rest
    else '-' :: replaceInvalidAux true rest

/-- `reInvalidSegment.ReplaceAllString(s, "-")`. -/
def replaceInvalidRuns (s : Str) : Str := replaceInvalidAux false s

/-- `sanitizeSegment` (path.go). -/
def sanitizeSegment (s : Str) : Str :=
  let lowered := toLowerStr (trimSpace s)
  let replaced := replaceInvalidRuns lowered
  let trimmed := trimCutset ['-', '.'] replaced
  if trimmed = [] then str "unknown" else trimmed

/-- `extensionForFormat` (path.go). -/
def extensionForFormat (format : Str) : Except Str Str :=
  if format = str "markdown" then .ok (str "md")
  else if format = str "json" then .ok (str "json")
  else .error (str "unsupported format: " ++ format)

/-- `DefaultPathTemplate` (path.go). -/
def DefaultPathTemplate : Str :=
  str "{out}/terraform/{namespace}/{provider}/{version}/docs/{category}/{slug}.{ext}"

/-! ### export.go: data model, error taxonomy, effect model -/

/-- The error taxonomy of export.go (`ValidationError`, `NotFoundError`,
`WriteError`) plus opaque errors surfaced from the API client, plus a
modelling-only marker for exhausting the page-loop bound. -/
inductive ExpErr where
  | validation (msg : Str)
  | notFound (msg : Str)
  | writeErr (path : Str) (msg : Str)
  | clientErr (msg : Str)
  | fuelOut
deriving DecidableEq, Repr

/-- One observable effect of an export run: a registry request or a filesystem
mutation.  `BuildOutputPath`'s `Lstat` reads are not mutations and are not
recorded. -/
inductive Event where
  | netGetJSON (path : Str)
  | netGet (path : Str)
  | mkdirAll (path : Str)
  | writeFile (path : Str) (content : Str)
  | removeAll (path : Str)
deriving DecidableEq, Repr

/-- Is the event a filesystem mutation? -/
def Event.isFsMutation : Event → Bool
  | .mkdirAll _ => true
  | .writeFile _ _ => true
  | .removeAll _ => true
  | _ => false

/-- Is the event a registry request? -/
def Event.isNet : Event → Bool
  | .netGetJSON _ => true
  | .netGet _ => true
  | _ => false

/-- `ExportOptions` (export.go).  The Go field `Namespace` is called `ns`
because `namespace` is a Lean keyword. -/
structure ExportOptions where
  ns : Str
  name : Str
  version : Str
  format : Str
  outDir : Str
  categories : List Str
  pathTemplate : Str
  clean : Bool
deriving DecidableEq, Repr

/-- `ExportSummary` (export.go). -/
structure ExportSummary where
  provider : Str
  version : Str
  outDir : Str
  written : Nat
  manifest : Str
deriving DecidableEq, Repr

/-- One entry of `providerVersionsResponse.Included`. -/
structure VersionEntry where
  typ : Str
  id : Str
  version : Str
deriving DecidableEq, Repr

/-- One entry of `providerDocsListResponse.Data`. -/
structure DocSummary where
  id : Str
  category : Str
  slug : Str
  title : Str
deriving DecidableEq, Repr

/-- The attributes of `providerDocDetailResponse.Data`. -/
structure DetailAttrs where
  category : Str
  slug : Str
  title : Str
  content : Str
deriving DecidableEq, Repr

/-- `providerDocDetailResponse` (the `Data` wrapper flattened to `id` +
attributes). -/
structure DetailResp where
  id : Str
  attributes : DetailAttrs
deriving DecidableEq, Repr

/-- `manifestItem` (export.go). -/
structure ManifestItem where
  docID : Str
  category : Str
  slug : Str
  title : Str
  path : Str
deriving DecidableEq, Repr

/-- The `manifest` struct (export.go) handed to `json.MarshalIndent`. -/
structure ManifestData where
  provider : Str
  ns : Str
  version : Str
  format : Str
  generatedAt : Str
  total : Nat
  docs : List ManifestItem
deriving DecidableEq, Repr

/-- `plannedFile` (export.go). -/
structure PlannedFile where
  path : Str
  content : Str
  item : ManifestItem
deriving DecidableEq, Repr

/-- The external collaborators of the export orchestrator: the API client
(threaded through an explicit state `σ`, since its on-disk cache makes it
stateful), the pure JSON library calls, the clock, the filesystem view, and
the working directory. -/
structure World (σ : Type) where
  /-- `client.GetJSON` decoded into `providerVersionsResponse`. -/
  getJSONVersions : Str → σ → Except Str (List VersionEntry) × σ
  /-- `client.GetJSON` decoded into `providerDocsListResponse`. -/
  getJSONDocs : Str → σ → Except Str (List DocSummary) × σ
  /-- `client.GetJSON` decoded into `providerDocDetailResponse`. -/
  getJSONDetail : Str → σ → Except Str DetailResp × σ
  /-- `client.Get` (raw bytes). -/
  getRaw : Str → σ → Except Str Str × σ
  /-- `json.Unmarshal` of raw bytes into `providerDocDetailResponse`
  (`none` = decode error). -/
  parseDetail : Str → Option DetailResp
  /-- `json.Unmarshal` into `any` followed by `json.MarshalIndent`
  (`none` = the bytes are not generic JSON). -/
  reencodeJSON : Str → Option Str
  /-- `json.MarshalIndent` of the manifest struct. -/
  marshalManifest : ManifestData → Str
  /-- `time.Now().UTC().Format(time.RFC3339)`. -/
  nowRFC3339 : Str
  /-- `os.Lstat`, for the symlink guards. -/
  lstat : Lstat
  /-- `os.Getwd`, for `filepath.Abs`. -/
  cwd : Str

/-- The state threaded through one export run: the client state and the
ordered event trace. -/
structure ExpState (σ : Type) where
  cs : σ
  events : List Event

/-- The export effect monad: explicit state passing with an `Except`-style
result (errors also return the state reached so far). -/
def ExpM (σ : Type) (α : Type) := ExpState σ → Except ExpErr α × ExpState σ

instance : Monad (ExpM σ) where
  pure a := fun s => (.ok a, s)
  bind m f := fun s =>
    match m s with
    | (.ok a, s') => f a s'
    | (.error e, s') => (.error e, s')

/-- Fail with an error. -/
def throwE (e : ExpErr) : ExpM σ α := fun s => (.error e, s)

/-- Lift a pure `Except` (no events, no state change). -/
def expOfExcept (x : Except ExpErr α) : ExpM σ α := fun s => (x, s)

/-- Record an event. -/
def emit (ev : Event) : ExpM σ Unit := fun s =>
  (.ok (), { s with events := s.events ++ [ev] })

/-- Run a client operation against the threaded client state, surfacing its
error opaquely (`ExpErr.clientErr`). -/
def liftClient (f : σ → Except Str β × σ) : ExpM σ β := fun s =>
  match f s.cs with
  | (.ok b, cs') => (.ok b, { s with cs := cs' })
  | (.error e, cs') => (.error (.clientErr e), { s with cs := cs' })

/-- `client.GetJSON` for the versions endpoint, with the request recorded. -/
def callGetJSONVersions (w : World σ) (path : Str) : ExpM σ (List VersionEntry) := do
  emit (.netGetJSON path)
  liftClient (w.getJSONVersions path)

/-- `client.GetJSON` for the docs-listing endpoint, with the request recorded. -/
def callGetJSONDocs (w : World σ) (path : Str) : ExpM σ (List DocSummary) := do
  emit (.netGetJSON path)
  liftClient (w.getJSONDocs path)

/-- `client.GetJSON` for the doc-detail endpoint, with the request recorded. -/
def callGetJSONDetail (w : World σ) (path : Str) : ExpM σ DetailResp := do
  emit (.netGetJSON path)
  liftClient (w.getJSONDetail path)

/-- `client.Get`, with the request recorded. -/
def callGetRaw (w : World σ) (path : Str) : ExpM σ Str := do
  emit (.netGet path)
  liftClient (w.getRaw path)

/-! ### export.go: validation and normalization -/

/-- `defaultCategories` (export.go), in declaration order. -/
def defaultCategories : List Str :=
  [str "resources", str "data-sources", str "ephemeral-resources",
   str "functions", str "guides", str "overview", str "actions",
   str "list-resources"]

/-- The reserved owner marker for the manifest path. -/
def reservedManifestPathOwner : Str := str "_manifest"

/-- Go's byte-wise lexicographic string order (`sort.Strings`); on UTF-8
strings this coincides with code-point lexicographic order. -/
def strLeB : Str → Str → Bool
  | [], _ => true
  | _ :: _, [] => false
  | a :: as, b :: bs => if a = b then strLeB as bs else decide (a < b)

/-- The inner token loop of `normalizeCategories` over one comma-split input:
returns `none` when an `all` token short-circuits, otherwise the grown set
(kept as an insertion-ordered duplicate-free list). -/
def normCatTokens : List Str → List Str → Except ExpErr (Option (List Str))
  | [], set => .ok (some set)
  | tok :: toks, set =>
    let cat := toLowerStr (trimSpace tok)
    if cat = [] then normCatTokens toks set
    else if cat = str "all" then .ok none
    else if cat ∈ defaultCategories then
      normCatTokens toks (if cat ∈ set then set else set ++ [cat])
    else .error (.validation (str "unsupported category: " ++ cat))

/-- The outer loop of `normalizeCategories` over the raw inputs. -/
def normCatLoop : List Str → List Str → Except ExpErr (Option (List Str))
  | [], set => .ok (some set)
  | raw :: rest, set =>
    match normCatTokens (splitOnChar ',' raw) set with
    | .error e => .error e
    | .ok none => .ok none
    | .ok (some set') => normCatLoop rest set'

/-- `normalizeCategories` (export.go).  The set collected in a Go map is
sorted with `sort.Strings`; the model keeps it as a duplicate-free list and
sorts it the same way. -/
def normalizeCategories (input : List Str) : Except ExpErr (List Str) :=
  if input = [] then .ok defaultCategories
  else
    match normCatLoop input [] with
    | .error e => .error e
    | .ok none => .ok defaultCategories
    | .ok (some set) =>
      if set = [] then .ok defaultCategories
      else .ok (List.insertionSort (fun a b => strLeB a b = true) set)

/-- `validateExportOptions` (export.go): trim/normalize every field, apply
defaults, require name/version/out-dir, absolutize the output directory, and
normalize the categories.  (The Go code mutates the record in place; the
model assembles the normalized record at the end, with identical field values
and the same error order.) -/
def validateExportOptions (cwd : Str) (o : ExportOptions) : Except ExpErr ExportOptions :=
  if toLowerStr (trimSpace o.name) = [] then
    .error (.validation (str "--name is required"))
  else if trimSpace o.version = [] then
    .error (.validation (str "--version is required"))
  else if trimSpace o.outDir = [] then
    .error (.validation (str "--out-dir is required"))
  else
    match normalizeCategories o.categories with
    | .error e => .error e
    | .ok cats =>
      match extensionForFormat
          (if toLowerStr (trimSpace o.format) = [] then str "markdown"
           else toLowerStr (trimSpace o.format)) with
      | .error e => .error (.validation e)
      | .ok _ =>
        .ok { ns := if toLowerStr (trimSpace o.ns) = [] then str "hashicorp"
                    else toLowerStr (trimSpace o.ns),
              name := toLowerStr (trimSpace o.name),
              version := trimSpace o.version,
              format := if toLowerStr (trimSpace o.format) = [] then str "markdown"
                        else toLowerStr (trimSpace o.format),
              outDir := pathAbs cwd (trimSpace o.outDir),
              categories := cats,
              pathTemplate := if trimSpace o.pathTemplate = [] then DefaultPathTemplate
                              else trimSpace o.pathTemplate,
              clean := o.clean }

/-- `manifestRootForOptions` (export.go). -/
def manifestRootForOptions (opts : ExportOptions) : Str :=
  pathJoinList [opts.outDir, str "terraform", sanitizeSegment opts.ns,
    sanitizeSegment opts.name, sanitizeSegment opts.version, str "docs"]

/-- `manifestPathForOptions` (export.go). -/
def manifestPathForOptions (opts : ExportOptions) : Str :=
  pathJoin2 (manifestRootForOptions opts) (str "_manifest.json")

/-- The path-variable mapping used by `validatePathTemplate` (export.go),
with `validation` standing in for the per-document variables. -/
def validationVars (opts : ExportOptions) (ext : Str) : Str → Option Str := fun k =>
  if k = str "out" then some opts.outDir
  else if k = str "namespace" then some (sanitizeSegment opts.ns)
  else if k = str "provider" then some (sanitizeSegment opts.name)
  else if k = str "version" then some (sanitizeSegment opts.version)
  else if k = str "category" then some (str "validation")
  else if k = str "slug" then some (str "validation")
  else if k = str "doc_id" then some (str "validation")
  else if k = str "ext" then some ext
  else none

/-- `validatePathTemplate` (export.go). -/
def validatePathTemplate (fs : Lstat) (cwd : Str) (opts : ExportOptions) (ext : Str) :
    Except ExpErr Unit :=
  match BuildOutputPath fs cwd opts.pathTemplate (validationVars opts ext) opts.outDir with
  | .error e => .error (.validation e)
  | .ok filePath =>
    if filePath = manifestPathForOptions opts then
      .error (.validation (str "path collision detected in --path-template: " ++ filePath ++
        str " conflicts with reserved manifest path"))
    else .ok ()

/-- `prepareExportOptions` (export.go): full option validation, returning the
normalized options and the file extension.  Pure: consults only `Lstat` and
the working directory, performs no mutation and no request. -/
def prepareExportOptions (fs : Lstat) (cwd : Str) (opts0 : ExportOptions) :
    Except ExpErr (ExportOptions × Str) :=
  match validateExportOptions cwd opts0 with
  | .error e => .error e
  | .ok opts =>
    match extensionForFormat opts.format with
    | .error e => .error (.validation e)
    | .ok ext =>
      match validatePathTemplate fs cwd opts ext with
      | .error e => .error e
      | .ok _ => .ok (opts, ext)

/-! ### export.go: clean-target derivation -/

/-- Substitute scanned chunks left to right, stopping at the first placeholder
missing from `known` (`substituteUntilUnknownPlaceholder`'s loop). -/
def substChunks (known : Str → Option Str) : List Chunk → Str × Bool
  | [] => ([], false)
  | .lit s :: rest =>
    let (r, u) := substChunks known rest
    (s ++ r, u)
  | .ph k :: rest =>
    match known k with
    | none => ([], true)
    | some v =>
      let (r, u) := substChunks known rest
      (v ++ r, u)

/-- `substituteUntilUnknownPlaceholder` (export.go). -/
def substituteUntilUnknownPlaceholder (template : Str) (known : Str → Option Str) :
    Str × Bool :=
  substChunks known (scanTemplate template)

/-- The variables resolvable from the options alone (`deriveTemplateRoot`'s
`known` map). -/
def knownRootVars (outAbs : Str) (opts : ExportOptions) (ext : Str) : Str → Option Str :=
  fun k =>
    if k = str "out" then some outAbs
    else if k = str "namespace" then some (sanitizeSegment opts.ns)
    else if k = str "provider" then some (sanitizeSegment opts.name)
    else if k = str "version" then some (sanitizeSegment opts.version)
    else if k = str "ext" then some ext
    else none

/-- `deriveTemplateRoot` (export.go): the static root implied by the path
template up to its first placeholder not resolvable from the options. -/
def deriveTemplateRoot (cwd : Str) (opts : ExportOptions) (ext : Str) : Except ExpErr Str :=
  let outAbs := pathAbs cwd opts.outDir
  let su := substituteUntilUnknownPlaceholder opts.pathTemplate (knownRootVars outAbs opts ext)
  let pref1 :=
    if ¬ su.2 then pathDir su.1
    else if su.1.getLast? ≠ some pathSep then pathDir su.1
    else su.1
  let pref2 := if trimSpace pref1 = [] ∨ pref1 = ['.'] then outAbs else pref1
  let rootAbs := resolvePathWithinBase cwd pref2 outAbs
  if ¬ isPathWithinDir outAbs rootAbs then
    .error (.validation (str "derived clean root is outside --out-dir"))
  else .ok rootAbs

/-- `deriveCleanTargets` (export.go): the template root and the manifest root,
deduplicated, refusing the output root itself, deeper paths first.  (Go builds
the pair in a map and sorts by length with an unstable sort; the model breaks
the tie of two distinct equal-length targets deterministically.) -/
def deriveCleanTargets (cwd : Str) (opts : ExportOptions) (ext : Str) :
    Except ExpErr (List Str) :=
  match deriveTemplateRoot cwd opts ext with
  | .error e => .error e
  | .ok templateRoot =>
    let manifestRoot := manifestRootForOptions opts
    let targets :=
      if templateRoot = manifestRoot then [templateRoot] else [templateRoot, manifestRoot]
    if opts.outDir ∈ targets then
      .error (.validation (str "--clean template resolves to --out-dir root, which is too broad"))
    else .ok (List.insertionSort (fun a b => b.length ≤ a.length) targets)

/-! ### export.go: listing, fetching, rendering -/

/-- `url.PathEscape`, modelled as the identity (no claim depends on URL
escaping; IDs and names in the claims are URL-safe). -/
def urlPathEscape (s : Str) : Str := s

/-- Decimal rendering of a page number. -/
def natToStr (n : Nat) : Str := (Nat.repr n).data

/-- The request path of `resolveProviderVersionID`. -/
def versionsPath (ns provider : Str) : Str :=
  str "/v2/providers/" ++ urlPathEscape ns ++ str "/" ++ urlPathEscape provider ++
    str "?include=provider-versions"

/-- `resolveProviderVersionID` (export.go): exact-match lookup in the
version-listing response; no match is a `NotFoundError`. -/
def resolveProviderVersionID (w : World σ) (ns provider version : Str) : ExpM σ Str := do
  let resp ← callGetJSONVersions w (versionsPath ns provider)
  match resp.find? (fun e => e.typ = str "provider-versions" ∧ e.version = version) with
  | some e => pure e.id
  | none =>
    throwE (.notFound (str "provider version not found: " ++ ns ++ str "/" ++ provider ++
      str "@" ++ version))

/-- The request path of `listProviderDocs` (query keys in `url.Values.Encode`
order, brackets percent-encoded). -/
def docsListPath (providerVersionID category : Str) (page : Nat) : Str :=
  str "/v2/provider-docs?filter%5Bcategory%5D=" ++ category ++
    str "&filter%5Blanguage%5D=hcl&filter%5Bprovider-version%5D=" ++ providerVersionID ++
    str "&page%5Bnumber%5D=" ++ natToStr page

/-- `listProviderDocs` (export.go). -/
def listProviderDocs (w : World σ) (providerVersionID category : Str) (page : Nat) :
    ExpM σ (List DocSummary) :=
  callGetJSONDocs w (docsListPath providerVersionID category page)

/-- The request path of `getProviderDocDetail`. -/
def docDetailPath (docID : Str) : Str :=
  str "/v2/provider-docs/" ++ urlPathEscape docID

/-- `getProviderDocDetail` (export.go): fetch raw bytes; if they fail to parse
as the detail structure, recover through exactly one `GetJSON` call (whose
client-side implementation bypasses an undecodable cache entry), surfacing its
error as-is, and re-read the raw bytes after a successful recovery. -/
def getProviderDocDetail (w : World σ) (docID : Str) : ExpM σ (DetailResp × Str) := do
  let path := docDetailPath docID
  let raw ← callGetRaw w path
  match w.parseDetail raw with
  | some detail => pure (detail, raw)
  | none => do
    let detail ← callGetJSONDetail w path
    let recoveredRaw ← callGetRaw w path
    pure (detail, recoveredRaw)

/-- `renderContent` (export.go).  (`json.MarshalIndent` of a value that was
just unmarshalled cannot fail; that error branch is dropped.) -/
def renderContent (reencode : Str → Option Str) (format : Str) (detail : DetailResp)
    (raw : Str) : Except ExpErr Str :=
  if format = str "markdown" then .ok detail.attributes.content
  else if format = str "json" then
    match reencode raw with
    | none =>
      if raw = [] then .error (.writeErr [] (str "empty provider doc response"))
      else .ok raw
    | some formatted => .ok (formatted ++ ['\n'])
  else .error (.validation (str "unsupported format: " ++ format))

/-! ### export.go: the planning loop of `ExportDocs` -/

/-- The loop-carried planning state of `ExportDocs`: the cross-category seen
set, the planned files, and the path→owner map (an insertion-ordered
association list standing for the Go map). -/
structure PlanState where
  seen : List Str
  planned : List PlannedFile
  pathOwners : List (Str × Str)
deriving Repr

/-- Lookup in the path→owner association list. -/
def lookupOwner (owners : List (Str × Str)) (path : Str) : Option Str :=
  (owners.find? (fun kv => kv.1 = path)).map (·.2)

/-- The per-document path-variable mapping built by `ExportDocs`, including
the `category == "unknown"` fallback to the requested category token. -/
def docVars (opts : ExportOptions) (ext category : Str) (detail : DetailResp)
    (slug : Str) : Str → Option Str :=
  let base : Str → Option Str := fun k =>
    if k = str "out" then some opts.outDir
    else if k = str "namespace" then some (sanitizeSegment opts.ns)
    else if k = str "provider" then some (sanitizeSegment opts.name)
    else if k = str "version" then some (sanitizeSegment opts.version)
    else if k = str "category" then some (sanitizeSegment detail.attributes.category)
    else if k = str "slug" then some (sanitizeSegment slug)
    else if k = str "doc_id" then some (sanitizeSegment detail.id)
    else if k = str "ext" then some ext
    else none
  if sanitizeSegment detail.attributes.category = str "unknown" then
    fun k => if k = str "category" then some (sanitizeSegment category) else base k
  else base

/-- The slug fallback chain of `ExportDocs`: detail slug, then summary slug,
then the document ID. -/
def chooseSlug (detail : DetailResp) (doc : DocSummary) : Str :=
  if detail.attributes.slug ≠ [] then detail.attributes.slug
  else if doc.slug ≠ [] then doc.slug
  else detail.id

/-- The body of `ExportDocs`'s inner document loop: fetch the detail, build the
output path, detect collisions against the owner map, render the content, and
append the planned file. -/
def processDoc (w : World σ) (opts : ExportOptions) (ext category : Str)
    (doc : DocSummary) (st : PlanState) : ExpM σ PlanState := do
  if doc.id ∈ st.seen then pure st
  else do
    let st1 : PlanState := { st with seen := st.seen ++ [doc.id] }
    let (detail, raw) ← getProviderDocDetail w doc.id
    let slug := chooseSlug detail doc
    let vars := docVars opts ext category detail slug
    match BuildOutputPath w.lstat w.cwd opts.pathTemplate vars opts.outDir with
    | .error e => throwE (.validation e)
    | .ok filePath =>
      match lookupOwner st1.pathOwners filePath with
      | some existing =>
        if existing = reservedManifestPathOwner then
          throwE (.validation (str "path collision detected in --path-template: " ++
            filePath ++ str " conflicts with reserved manifest path"))
        else
          throwE (.validation (str "path collision detected in --path-template: " ++
            filePath ++ str " (doc_id=" ++ existing ++ str " conflicts with doc_id=" ++
            detail.id ++ str ")"))
      | none =>
        let st2 : PlanState := { st1 with pathOwners := st1.pathOwners ++ [(filePath, detail.id)] }
        match renderContent w.reencodeJSON opts.format detail raw with
        | .error e => throwE e
        | .ok content =>
          let relPath := (pathRel opts.outDir filePath).getD filePath
          pure { st2 with
            planned := st2.planned ++
              [{ path := filePath, content := content,
                 item := { docID := detail.id, category := detail.attributes.category,
                           slug := slug, title := detail.attributes.title,
                           path := toSlash relPath } }] }

/-- Fold `processDoc` over one listing page. -/
def processDocs (w : World σ) (opts : ExportOptions) (ext category : Str) :
    List DocSummary → PlanState → ExpM σ PlanState
  | [], st => pure st
  | doc :: rest, st => do
    let st' ← processDoc w opts ext category doc st
    processDocs w opts ext category rest st'

/-- The unbounded `for page := 1; ; page++` loop, bounded by explicit fuel
(an adversarial registry could prevent termination; `ExpErr.fuelOut` marks the
modelling bound, never reached for any registry that eventually returns an
empty page within the bound). -/
def pageLoop (w : World σ) (opts : ExportOptions) (ext : Str)
    (providerVersionID category : Str) :
    Nat → Nat → PlanState → ExpM σ PlanState
  | 0, _, _ => throwE .fuelOut
  | fuel + 1, page, st => do
    let docs ← listProviderDocs w providerVersionID category page
    if docs = [] then pure st
    else do
      let st' ← processDocs w opts ext category docs st
      pageLoop w opts ext providerVersionID category fuel (page + 1) st'

/-- The outer category loop of `ExportDocs`'s planning phase. -/
def planCategories (w : World σ) (opts : ExportOptions) (ext : Str)
    (providerVersionID : Str) (fuel : Nat) :
    List Str → PlanState → ExpM σ PlanState
  | [], st => pure st
  | category :: rest, st => do
    let st' ← pageLoop w opts ext providerVersionID category fuel 1 st
    planCategories w opts ext providerVersionID fuel rest st'

/-! ### export.go: clean, write, manifest, and the orchestrator -/

/-- The `--clean` deletion loop: validate each target with the destructive-mode
guard, then delete it. -/
def cleanTargetsLoop (w : World σ) (opts : ExportOptions) : List Str → ExpM σ Unit
  | [] => pure ()
  | target :: rest =>
    match ensureNoSymlinkTraversal w.lstat opts.outDir target with
    | .error e =>
      throwE (.validation (str "unsafe --clean target " ++ target ++ str ": " ++ e))
    | .ok _ => do
      emit (.removeAll target)
      cleanTargetsLoop w opts rest

/-- The write loop of `ExportDocs`: re-validate each planned path, create its
parent directory, write it, and collect its manifest entry.  (Local filesystem
failures — `WriteError` — are not modelled; writes are recorded as events.) -/
def writePlanned (w : World σ) (opts : ExportOptions) :
    List PlannedFile → ExpM σ (List ManifestItem)
  | [] => pure []
  | pf :: rest =>
    match ensureNoSymlinkTraversal w.lstat opts.outDir pf.path with
    | .error e =>
      throwE (.validation (str "unsafe output path " ++ pf.path ++ str ": " ++ e))
    | .ok _ => do
      emit (.mkdirAll (pathDir pf.path))
      emit (.writeFile pf.path pf.content)
      let restItems ← writePlanned w opts rest
      pure (pf.item :: restItems)

/-- `writeManifest` (export.go). -/
def writeManifest (w : World σ) (opts : ExportOptions) (docs : List ManifestItem) :
    ExpM σ Str := do
  let manifestPath := manifestPathForOptions opts
  match ensureNoSymlinkTraversal w.lstat opts.outDir manifestPath with
  | .error e =>
    throwE (.validation (str "unsafe manifest path " ++ manifestPath ++ str ": " ++ e))
  | .ok _ => do
    let docsRoot := pathDir manifestPath
    emit (.mkdirAll docsRoot)
    let m : ManifestData :=
      { provider := sanitizeSegment opts.name, ns := sanitizeSegment opts.ns,
        version := opts.version, format := opts.format, generatedAt := w.nowRFC3339,
        total := docs.length, docs := docs }
    emit (.writeFile manifestPath (w.marshalManifest m ++ ['\n']))
    pure manifestPath

/-- `sort.Slice(planned, …)` by output-relative path (modelled with a stable
sort; Go's unstable sort differs only on distinct entries with equal keys). -/
def sortPlanned (planned : List PlannedFile) : List PlannedFile :=
  List.insertionSort (fun a b => a.item.path ≤ b.item.path) planned

/-- `ExportDocs` (export.go): the full export pipeline, from option validation
through version resolution, planning, optional clean, writes and the manifest. -/
def ExportDocs (w : World σ) (fuel : Nat) (opts0 : ExportOptions) : ExpM σ ExportSummary := do
  let pe ← expOfExcept (prepareExportOptions w.lstat w.cwd opts0)
  let opts := pe.1
  let ext := pe.2
  let providerVersionID ← resolveProviderVersionID w opts.ns opts.name opts.version
  let st0 : PlanState :=
    { seen := [], planned := [],
      pathOwners := [(manifestPathForOptions opts, reservedManifestPathOwner)] }
  let stFinal ← planCategories w opts ext providerVersionID fuel opts.categories st0
  let planned := sortPlanned stFinal.planned
  if opts.clean then do
    let targets ← expOfExcept (deriveCleanTargets w.cwd opts ext)
    cleanTargetsLoop w opts targets
  else pure ()
  let manifestDocs ← writePlanned w opts planned
  let manifestPath ← writeManifest w opts manifestDocs
  let relManifestPath := (pathRel opts.outDir manifestPath).getD manifestPath
  pure
    { provider := sanitizeSegment opts.name, version := opts.version, outDir := opts.outDir,
      written := planned.length,
      manifest := toSlash (pathJoin2 opts.outDir relManifestPath) }

/-- `PreflightExportOptions` (export.go). -/
def PreflightExportOptions (fs : Lstat) (cwd : Str) (opts : ExportOptions) :
    Except ExpErr Unit :=
  match prepareExportOptions fs cwd opts with
  | .error e => .error e
  | .ok _ => .ok ()

/-! ### Helper lemmas about trimming and the sanitizer -/

theorem toNat_charOfNat (n : Nat) (h : n < 55296) : (Char.ofNat n).toNat = n := by
  simp [Char.ofNat, Char.toNat, Nat.isValidChar, h, Char.ofNatAux, UInt32.toNat,
    UInt32.ofNatCore]

theorem head_dropWhile_false (p : Char → Bool) (l : List Char) (c : Char)
    (h : (l.dropWhile p).head? = some c) : p c = false := by
  induction l with
  | nil => simp [List.dropWhile] at h
  | cons a r ih =>
    by_cases hp : p a
    · simp [List.dropWhile, hp] at h
      exact ih h
    · simp [List.dropWhile, hp] at h
      subst h
      simpa using hp

theorem getLast_dropWhile_eq (p : Char → Bool) (l : List Char)
    (h : l.dropWhile p ≠ []) : (l.dropWhile p).getLast? = l.getLast? := by
  induction l with
  | nil => simp [List.dropWhile] at h
  | cons a r ih =>
    by_cases hp : p a
    · simp only [List.dropWhile, hp] at h ⊢
      rw [ih h]
      have hr : r ≠ [] := by
        intro e
        subst e
        simp [List.dropWhile] at h
      cases r with
      | nil => simp at hr
      | cons b s => simp [List.getLast?]
    · simp [List.dropWhile, hp]

theorem mem_trimCutset (cut : List Char) (s : Str) (c : Char)
    (h : c ∈ trimCutset cut s) : c ∈ s := by
  unfold trimCutset at h
  rw [List.mem_reverse] at h
  have h1 := (List.dropWhile_sublist _).subset h
  rw [List.mem_reverse] at h1
  exact (List.dropWhile_sublist _).subset h1

theorem head_trimCutset (cut : List Char) (s : Str) (c : Char)
    (h : (trimCutset cut s).head? = some c) : c ∉ cut := by
  unfold trimCutset at h
  rw [List.head?_reverse] at h
  have hne : (((s.dropWhile (· ∈ cut)).reverse).dropWhile (· ∈ cut)) ≠ [] := by
    intro e
    rw [e] at h
    simp at h
  rw [getLast_dropWhile_eq _ _ hne, List.getLast?_reverse] at h
  have := head_dropWhile_false (fun c => decide (c ∈ cut)) s c h
  simpa using this

theorem getLast_trimCutset (cut : List Char) (s : Str) (c : Char)
    (h : (trimCutset cut s).getLast? = some c) : c ∉ cut := by
  unfold trimCutset at h
  rw [List.getLast?_reverse] at h
  have := head_dropWhile_false (fun c => decide (c ∈ cut)) ((s.dropWhile (· ∈ cut)).reverse) c h
  simpa using this

theorem charToLowerAscii_not_upper (c : Char) :
    ¬ (65 ≤ (charToLowerAscii c).toNat ∧ (charToLowerAscii c).toNat ≤ 90) := by
  unfold charToLowerAscii
  split
  · next h =>
    rw [toNat_charOfNat _ (by omega)]
    omega
  · next h => omega

theorem mem_replaceInvalidAux (s : Str) (b : Bool) (c : Char)
    (hc : c ∈ replaceInvalidAux b s) : c = '-' ∨ (validSegChar c = true ∧ c ∈ s) := by
  induction s generalizing b with
  | nil => simp [replaceInvalidAux] at hc
  | cons a rest ih =>
    by_cases hv : validSegChar a
    · rw [replaceInvalidAux, if_pos hv] at hc
      rcases List.mem_cons.mp hc with h | h
      · subst h
        exact .inr ⟨hv, List.mem_cons_self _ _⟩
      · rcases ih false h with h' | ⟨h1, h2⟩
        · exact .inl h'
        · exact .inr ⟨h1, List.mem_cons_of_mem _ h2⟩
    · rw [replaceInvalidAux, if_neg hv] at hc
      by_cases hb : b
      · subst hb
        simp only [if_true] at hc
        rcases ih true hc with h' | ⟨h1, h2⟩
        · exact .inl h'
        · exact .inr ⟨h1, List.mem_cons_of_mem _ h2⟩
      · simp only [hb, if_false] at hc
        rcases List.mem_cons.mp hc with h | h
        · exact .inl h
        · rcases ih true h with h' | ⟨h1, h2⟩
          · exact .inl h'
          · exact .inr ⟨h1, List.mem_cons_of_mem _ h2⟩

theorem mem_replaceInvalidRuns (s : Str) (c : Char) (hc : c ∈ replaceInvalidRuns s) :
    c = '-' ∨ (validSegChar c = true ∧ c ∈ s) :=
  mem_replaceInvalidAux s false c hc

/-- C10: for every input, `sanitizeSegment` returns a non-empty string of
lowercase letters, digits, `.`, `_`, `-`, with no leading or trailing `-` or
`.`; the empty input yields `unknown`; consequently the result never contains
a path separator, a brace, or a `..` segment. -/
theorem sanitizeSegment_invariant (s : Str) :
    sanitizeSegment s ≠ [] ∧
    (∀ c ∈ sanitizeSegment s,
      (97 ≤ c.toNat ∧ c.toNat ≤ 122) ∨ (48 ≤ c.toNat ∧ c.toNat ≤ 57) ∨
        c = '.' ∨ c = '_' ∨ c = '-') ∧
    (∀ c, (sanitizeSegment s).head? = some c → c ≠ '-' ∧ c ≠ '.') ∧
    (∀ c, (sanitizeSegment s).getLast? = some c → c ≠ '-' ∧ c ≠ '.') ∧
    pathSep ∉ sanitizeSegment s ∧ lbrace ∉ sanitizeSegment s ∧
    rbrace ∉ sanitizeSegment s ∧ sanitizeSegment s ≠ str ".." ∧
    (s = [] → sanitizeSegment s = str "unknown") := by
  by_cases ht : trimCutset ['-', '.'] (replaceInvalidRuns (toLowerStr (trimSpace s))) = []
  · have hres : sanitizeSegment s = str "unknown" := by
      unfold sanitizeSegment
      rw [if_pos ht]
    rw [hres]
    refine ⟨by decide, ?_, by decide, by decide, by decide, by decide, by decide, by decide,
      fun _ => rfl⟩
    intro c hc
    simp [str] at hc
    rcases hc with rfl | rfl | rfl | rfl | rfl | rfl | rfl <;> decide
  · have hres : sanitizeSegment s =
        trimCutset ['-', '.'] (replaceInvalidRuns (toLowerStr (trimSpace s))) := by
      unfold sanitizeSegment
      rw [if_neg ht]
    rw [hres]
    have hchar : ∀ c ∈ trimCutset ['-', '.'] (replaceInvalidRuns (toLowerStr (trimSpace s))),
        (97 ≤ c.toNat ∧ c.toNat ≤ 122) ∨ (48 ≤ c.toNat ∧ c.toNat ≤ 57) ∨
          c = '.' ∨ c = '_' ∨ c = '-' := by
      intro c hc
      have h1 := mem_trimCutset _ _ _ hc
      rcases mem_replaceInvalidRuns _ _ h1 with h2 | ⟨hv, hmem⟩
      · subst h2
        decide
      · rcases List.mem_map.mp hmem with ⟨d, _, hd⟩
        have hup := charToLowerAscii_not_upper d
        rw [hd] at hup
        simp only [validSegChar, Bool.or_eq_true, decide_eq_true_eq] at hv
        rcases hv with h | h | h | h | h | h
        · exact .inl h
        · exact absurd h hup
        · exact .inr (.inl h)
        · exact .inr (.inr (.inl h))
        · exact .inr (.inr (.inr (.inl h)))
        · exact .inr (.inr (.inr (.inr h)))
    have hhead : ∀ c,
        (trimCutset ['-', '.'] (replaceInvalidRuns (toLowerStr (trimSpace s)))).head? =
          some c → c ≠ '-' ∧ c ≠ '.' := by
      intro c hc
      have := head_trimCutset _ _ _ hc
      simp at this
      exact ⟨this.1, this.2⟩
    refine ⟨ht, hchar, hhead, ?_, ?_, ?_, ?_, ?_, ?_⟩
    · intro c hc
      have := getLast_trimCutset _ _ _ hc
      simp at this
      exact ⟨this.1, this.2⟩
    · intro hmem
      have := hchar _ hmem
      revert this
      decide
    · intro hmem
      have := hchar _ hmem
      revert this
      decide
    · intro hmem
      have := hchar _ hmem
      revert this
      decide
    · intro he
      have hh : (trimCutset ['-', '.']
          (replaceInvalidRuns (toLowerStr (trimSpace s)))).head? = some '.' := by
        rw [he]
        rfl
      exact absurd rfl (hhead '.' hh).2
    · intro hs
      subst hs
      exact absurd (by decide) ht

/-! ### Scanner lemmas for the single-pass substitution claim -/

/-- Brace-free text (can never start or continue a placeholder match). -/
def braceFree (s : Str) : Bool := s.all (fun c => ¬ (c = lbrace ∨ c = rbrace))

theorem scanAux_lit (lit : Str) (hl : braceFree lit = true) (acc rest : Str) :
    scanAux acc none (lit ++ rest) = scanAux (acc ++ lit) none rest := by
  induction lit generalizing acc with
  | nil => simp
  | cons c l ih =>
    simp only [braceFree, List.all_cons, Bool.and_eq_true, decide_eq_true_eq] at hl
    have hc : c ≠ lbrace := by
      intro e
      exact hl.1 (Or.inl e)
    rw [List.cons_append, scanAux, if_neg hc, ih (by simpa [braceFree] using hl.2)]
    simp

theorem scanAux_key (k2 kacc : Str) (hk : braceFree k2 = true) (acc rest : Str) :
    scanAux acc (some kacc) (k2 ++ rbrace :: rest) =
      (if kacc ++ k2 = [] then scanAux (acc ++ [lbrace, rbrace]) none rest
       else .lit acc :: .ph (kacc ++ k2) :: scanAux [] none rest) := by
  induction k2 generalizing kacc with
  | nil =>
    rw [List.nil_append, scanAux, if_pos rfl]
    simp
  | cons c l ih =>
    simp only [braceFree, List.all_cons, Bool.and_eq_true, decide_eq_true_eq] at hk
    have hc1 : c ≠ rbrace := by
      intro e
      exact hk.1 (Or.inr e)
    have hc2 : c ≠ lbrace := by
      intro e
      exact hk.1 (Or.inl e)
    rw [List.cons_append, scanAux, if_neg hc1, if_neg hc2,
      ih (kacc ++ [c]) (by simpa [braceFree] using hk.2)]
    simp

theorem scanAux_ph (k : Str) (hk : braceFree k = true) (hne : k ≠ []) (acc rest : Str) :
    scanAux acc none (lbrace :: (k ++ rbrace :: rest)) =
      .lit acc :: .ph k :: scanAux [] none rest := by
  rw [scanAux, if_pos rfl, scanAux_key k [] hk acc rest]
  simp [hne]

/-- A template interleaving literal pieces with placeholders, ending in a
final literal piece. -/
def mkTemplate : List (Str × Str) → Str → Str
  | [], finLit => finLit
  | (lit, k) :: rest, finLit => lit ++ lbrace :: (k ++ rbrace :: mkTemplate rest finLit)

/-- The same interleaving with each placeholder replaced by its value,
copied verbatim. -/
def mkRendered (vars : Str → Option Str) : List (Str × Str) → Str → Str
  | [], finLit => finLit
  | (lit, k) :: rest, finLit => lit ++ (vars k).getD [] ++ mkRendered vars rest finLit

/-- The chunk list of an interleaved template. -/
def mkChunks : List (Str × Str) → Str → List Chunk
  | [], finLit => [.lit finLit]
  | (lit, k) :: rest, finLit => .lit lit :: .ph k :: mkChunks rest finLit

theorem scanTemplate_mkTemplate (ps : List (Str × Str)) (finLit : Str)
    (hps : ∀ p ∈ ps, braceFree p.1 = true ∧ braceFree p.2 = true ∧ p.2 ≠ [])
    (hfin : braceFree finLit = true) :
    scanTemplate (mkTemplate ps finLit) = mkChunks ps finLit := by
  induction ps with
  | nil =>
    show scanAux [] none finLit = [.lit finLit]
    have h := scanAux_lit finLit hfin [] []
    simp only [List.append_nil, List.nil_append] at h
    rw [h]
    rfl
  | cons p rest ih =>
    obtain ⟨lit, k⟩ := p
    have hp := hps (lit, k) (List.mem_cons_self _ _)
    show scanAux [] none (lit ++ _) = _
    rw [scanAux_lit lit hp.1 [] _, scanAux_ph k hp.2.1 hp.2.2 _ _]
    simp only [List.nil_append, mkChunks]
    have := ih (fun q hq => hps q (List.mem_cons_of_mem _ hq))
    rw [← this]
    rfl

theorem renderChunks_mkChunks (vars : Str → Option Str) (ps : List (Str × Str))
    (finLit : Str) (hbound : ∀ p ∈ ps, (vars p.2).isSome = true) :
    renderChunks vars (mkChunks ps finLit) = .ok (mkRendered vars ps finLit) := by
  induction ps with
  | nil => simp [mkChunks, renderChunks, mkRendered, Except.map]
  | cons p rest ih =>
    obtain ⟨lit, k⟩ := p
    have hb := hbound (lit, k) (List.mem_cons_self _ _)
    obtain ⟨v, hv⟩ := Option.isSome_iff_exists.mp hb
    rw [mkChunks, renderChunks, renderChunks, hv,
      ih (fun q hq => hbound q (List.mem_cons_of_mem _ hq))]
    simp [mkRendered, hv, Except.map]

theorem templateLeftover_mkTemplate (ps : List (Str × Str)) (finLit : Str)
    (hps : ∀ p ∈ ps, braceFree p.1 = true ∧ braceFree p.2 = true ∧ p.2 ≠ [])
    (hfin : braceFree finLit = true) :
    validatePathTemplateSyntax (mkTemplate ps finLit) = .ok () := by
  unfold validatePathTemplateSyntax
  rw [templateLeftover, scanTemplate_mkTemplate ps finLit hps hfin]
  have hno : ∀ c ∈ (mkChunks ps finLit).foldr
      (fun c acc => match c with | .lit s => s ++ acc | .ph _ => acc) [],
      ¬ (c = lbrace ∨ c = rbrace) := by
    induction ps with
    | nil =>
      intro c hc
      simp only [mkChunks, List.foldr] at hc
      rw [List.append_nil] at hc
      simpa [braceFree] using List.all_eq_true.mp hfin c hc
    | cons p rest ih =>
      intro c hc
      obtain ⟨lit, k⟩ := p
      simp only [mkChunks, List.foldr] at hc
      rcases List.mem_append.mp hc with h | h
      · have hp := (hps (lit, k) (List.mem_cons_self _ _)).1
        simpa [braceFree] using List.all_eq_true.mp hp c h
      · exact ih (fun q hq => hps q (List.mem_cons_of_mem _ hq)) c h
  rw [if_neg]
  intro hany
  obtain ⟨c, hc, hcb⟩ := List.any_eq_true.mp hany
  exact hno c hc (by simpa using hcb)

/-- C5: path-template substitution is a single left-to-right pass.  For every
interleaving of brace-free literal pieces and placeholders, and for every
variable mapping binding those placeholders with arbitrary values (which may
themselves contain placeholder-shaped text), the rendered path is the
interleaving with each value inserted verbatim; values are never re-scanned.
In particular, a value containing `\x7bnamespace\x7d` renders literally even
though `namespace` is itself bound. -/
theorem c5_render_single_pass :
    (∀ (ps : List (Str × Str)) (finLit : Str) (vars : Str → Option Str),
      (∀ p ∈ ps, braceFree p.1 = true ∧ braceFree p.2 = true ∧ p.2 ≠ []) →
      braceFree finLit = true →
      (∀ p ∈ ps, (vars p.2).isSome = true) →
      renderPathTemplate (mkTemplate ps finLit) vars = .ok (mkRendered vars ps finLit)) ∧
    renderPathTemplate (str "{out}/{slug}.md")
      (fun k =>
        if k = str "out" then some (str "/o")
        else if k = str "slug" then some (lbrace :: str "namespace" ++ [rbrace])
        else if k = str "namespace" then some (str "EVIL")
        else none) =
      .ok (str "/o/" ++ lbrace :: str "namespace" ++ [rbrace] ++ str ".md") := by
  constructor
  · intro ps finLit vars hps hfin hbound
    unfold renderPathTemplate
    rw [templateLeftover_mkTemplate ps finLit hps hfin,
      scanTemplate_mkTemplate ps finLit hps hfin,
      renderChunks_mkChunks vars ps finLit hbound]
  · rfl

/-! ### Lemmas about splitting, joining and cleaning paths -/

theorem splitOnChar_cons (sep c : Char) (t : Str) :
    splitOnChar sep (c :: t) =
      match splitOnChar sep t with
      | [] => [[c]]
      | g :: gs => if c = sep then [] :: g :: gs else (c :: g) :: gs := rfl

theorem splitOnChar_ne_nil (sep : Char) (s : Str) : splitOnChar sep s ≠ [] := by
  induction s with
  | nil => simp [splitOnChar]
  | cons c t ih =>
    rw [splitOnChar_cons]
    cases h : splitOnChar sep t with
    | nil => simp
    | cons g gs => by_cases hc : c = sep <;> simp [hc]

theorem splitOnChar_cons_sep (sep : Char) (t : Str) :
    splitOnChar sep (sep :: t) = [] :: splitOnChar sep t := by
  rw [splitOnChar_cons]
  cases h : splitOnChar sep t with
  | nil => exact absurd h (splitOnChar_ne_nil sep t)
  | cons g gs => simp

theorem splitOnChar_no_sep (sep : Char) (x : Str) (hx : sep ∉ x) :
    splitOnChar sep x = [x] := by
  induction x with
  | nil => rfl
  | cons c t ih =>
    have hc : c ≠ sep := by
      intro e
      exact hx (e ▸ List.mem_cons_self _ _)
    have ht : sep ∉ t := fun h => hx (List.mem_cons_of_mem _ h)
    rw [splitOnChar_cons, ih ht]
    simp [hc]

theorem splitOnChar_append_sep (sep : Char) (x t : Str) (hx : sep ∉ x) :
    splitOnChar sep (x ++ sep :: t) = x :: splitOnChar sep t := by
  induction x with
  | nil => simpa using splitOnChar_cons_sep sep t
  | cons c y ih =>
    have hc : c ≠ sep := by
      intro e
      exact hx (e ▸ List.mem_cons_self _ _)
    have hy : sep ∉ y := fun h => hx (List.mem_cons_of_mem _ h)
    rw [List.cons_append, splitOnChar_cons, ih hy]
    simp [hc]

theorem mem_splitOnChar_not_sep (sep : Char) (x : Str) (s : Str)
    (hs : s ∈ splitOnChar sep x) : sep ∉ s := by
  induction x generalizing s with
  | nil =>
    simp [splitOnChar] at hs
    simp [hs]
  | cons c t ih =>
    rw [splitOnChar_cons] at hs
    cases h : splitOnChar sep t with
    | nil => exact absurd h (splitOnChar_ne_nil sep t)
    | cons g gs =>
      rw [h] at hs
      by_cases hc : c = sep
      · simp only [hc, if_pos rfl] at hs
        rcases List.mem_cons.mp hs with he | he
        · simp [he]
        · exact ih s (h ▸ he)
      · simp only [if_neg hc] at hs
        rcases List.mem_cons.mp hs with he | he
        · subst he
          intro hmem
          rcases List.mem_cons.mp hmem with h1 | h1
          · exact hc h1.symm
          · exact ih g (h ▸ List.mem_cons_self _ _) h1
        · exact ih s (h ▸ List.mem_cons_of_mem _ he)

theorem joinSep_append_single (sep : Char) (l : List Str) (x : Str) (hl : l ≠ []) :
    joinSep sep (l ++ [x]) = joinSep sep l ++ sep :: x := by
  induction l with
  | nil => exact absurd rfl hl
  | cons a as ih =>
    cases as with
    | nil => rfl
    | cons b bs =>
      have ih' := ih (by simp)
      rw [List.cons_append] at ih' ⊢
      show a ++ sep :: joinSep sep (b :: (bs ++ [x])) = (a ++ sep :: joinSep sep (b :: bs)) ++ sep :: x
      rw [ih']
      simp

theorem split_joinSep (sep : Char) (l : List Str) (hsep : ∀ s ∈ l, sep ∉ s)
    (hl : l ≠ []) : splitOnChar sep (joinSep sep l) = l := by
  induction l with
  | nil => exact absurd rfl hl
  | cons a as ih =>
    cases as with
    | nil => exact splitOnChar_no_sep sep a (hsep a (List.mem_cons_self _ _))
    | cons b bs =>
      rw [joinSep, splitOnChar_append_sep sep a _ (hsep a (List.mem_cons_self _ _)),
        ih (fun s hs => hsep s (List.mem_cons_of_mem _ hs)) (by simp)]

/-! ### Cleaned absolute paths as segment lists -/

/-- A well-formed path segment: non-empty, not `.` or `..`, separator-free. -/
def GoodSeg (s : Str) : Prop :=
  s ≠ [] ∧ s ≠ ['.'] ∧ s ≠ ['.', '.'] ∧ pathSep ∉ s

/-- All segments well formed. -/
def GoodSegs (l : List Str) : Prop := ∀ s ∈ l, GoodSeg s

/-- The absolute path spelled by a segment list. -/
def absOfSegs (l : List Str) : Str := pathSep :: joinSep pathSep l

theorem goodSegs_append (A B : List Str) (hA : GoodSegs A) (hB : GoodSegs B) :
    GoodSegs (A ++ B) := by
  intro s hs
  rcases List.mem_append.mp hs with h | h
  · exact hA s h
  · exact hB s h

theorem goodSegs_of_append_left (A B : List Str) (h : GoodSegs (A ++ B)) : GoodSegs A :=
  fun s hs => h s (List.mem_append.mpr (.inl hs))

theorem goodSegs_of_append_right (A B : List Str) (h : GoodSegs (A ++ B)) : GoodSegs B :=
  fun s hs => h s (List.mem_append.mpr (.inr hs))

theorem cleanFold_good (rooted : Bool) (l : List Str) (hl : GoodSegs l) :
    ∀ init, List.foldl (cleanStep rooted) init l = init ++ l := by
  induction l with
  | nil => simp
  | cons a as ih =>
    intro init
    have ha := hl a (List.mem_cons_self _ _)
    have hstep : cleanStep rooted init a = init ++ [a] := by
      unfold cleanStep
      rw [if_neg, if_neg]
      · intro e
        exact ha.2.2.1 e
      · intro e
        rcases e with e | e
        · exact ha.1 e
        · exact ha.2.1 e
    rw [List.foldl_cons, hstep, ih (fun s hs => hl s (List.mem_cons_of_mem _ hs))]
    simp

theorem isAbs_absOfSegs (l : List Str) : isAbs (absOfSegs l) = true := rfl

theorem splitOnChar_absOfSegs (l : List Str) (hl : GoodSegs l) :
    splitOnChar pathSep (absOfSegs l) = [] :: l ∨
      (l = [] ∧ splitOnChar pathSep (absOfSegs l) = [[], []]) := by
  cases l with
  | nil =>
    right
    exact ⟨rfl, rfl⟩
  | cons a as =>
    left
    unfold absOfSegs
    rw [splitOnChar_cons_sep, split_joinSep pathSep (a :: as)
      (fun s hs => (hl s hs).2.2.2) (by simp)]

theorem cleanSegs_true_cons_nil (l : List Str) (hl : GoodSegs l) :
    cleanSegs true ([] :: l) = l := by
  unfold cleanSegs
  rw [List.foldl_cons]
  have h0 : cleanStep true [] ([] : Str) = [] := by
    unfold cleanStep
    simp
  rw [h0, cleanFold_good true l hl []]
  simp

theorem pathClean_absOfSegs (l : List Str) (hl : GoodSegs l) :
    pathClean (absOfSegs l) = absOfSegs l := by
  unfold pathClean
  rw [if_neg (by simp [absOfSegs])]
  simp only [isAbs_absOfSegs]
  rcases splitOnChar_absOfSegs l hl with h | ⟨he, h⟩
  · rw [h, cleanSegs_true_cons_nil l hl]
    rfl
  · subst he
    rw [h]
    rfl

theorem absOfSegs_inj (A B : List Str) (hA : GoodSegs A) (hB : GoodSegs B)
    (h : absOfSegs A = absOfSegs B) : A = B := by
  unfold absOfSegs at h
  have hj : joinSep pathSep A = joinSep pathSep B := by
    injection h
  cases ha : A with
  | nil =>
    cases hb : B with
    | nil => rfl
    | cons b bs =>
      subst ha
      subst hb
      rw [joinSep] at hj
      have hbg := hB b (List.mem_cons_self _ _)
      cases bs with
      | nil => exact absurd hj.symm hbg.1
      | cons c cs =>
        rw [joinSep] at hj
        have : b ++ pathSep :: joinSep pathSep (c :: cs) = [] := hj.symm
        simp at this
  | cons a as =>
    cases hb : B with
    | nil =>
      subst ha
      subst hb
      rw [joinSep] at hj
      have hag := hA a (List.mem_cons_self _ _)
      cases as with
      | nil => exact absurd hj hag.1
      | cons c cs =>
        rw [joinSep] at hj
        simp at hj
    | cons b bs =>
      subst ha
      subst hb
      have h1 : splitOnChar pathSep (joinSep pathSep (a :: as)) = a :: as :=
        split_joinSep pathSep (a :: as) (fun s hs => (hA s hs).2.2.2) (by simp)
      have h2 : splitOnChar pathSep (joinSep pathSep (b :: bs)) = b :: bs :=
        split_joinSep pathSep (b :: bs) (fun s hs => (hB s hs).2.2.2) (by simp)
      rw [← h1, ← h2, hj]

theorem goodSegs_cleanStep (rooted : Bool) (init : List Str) (seg : Str)
    (hinit : GoodSegs init) (hsep : pathSep ∉ seg) (hroot : rooted = true) :
    GoodSegs (cleanStep rooted init seg) := by
  unfold cleanStep
  by_cases h1 : seg = [] ∨ seg = ['.']
  · rw [if_pos h1]
    exact hinit
  · rw [if_neg h1]
    by_cases h2 : seg = ['.', '.']
    · rw [if_pos h2]
      by_cases h3 : init ≠ [] ∧ init.getLast? ≠ some ['.', '.']
      · rw [if_pos h3]
        intro s hs
        exact hinit s ((List.dropLast_sublist init).subset hs)
      · rw [if_neg h3, if_pos hroot]
        exact hinit
    · rw [if_neg h2]
      intro s hs
      rcases List.mem_append.mp hs with h | h
      · exact hinit s h
      · rw [List.mem_singleton.mp h]
        push_neg at h1
        exact ⟨h1.1, h1.2, h2, hsep⟩

theorem goodSegs_cleanSegs_true (segs : List Str) (hsep : ∀ s ∈ segs, pathSep ∉ s) :
    GoodSegs (cleanSegs true segs) := by
  unfold cleanSegs
  have gen : ∀ (l : List Str) (init : List Str), GoodSegs init → (∀ s ∈ l, pathSep ∉ s) →
      GoodSegs (List.foldl (cleanStep true) init l) := by
    intro l
    induction l with
    | nil => intro init hi _; simpa using hi
    | cons a as ih =>
      intro init hi hm
      rw [List.foldl_cons]
      exact ih _ (goodSegs_cleanStep true init a hi (hm a (List.mem_cons_self _ _)) rfl)
        (fun s hs => hm s (List.mem_cons_of_mem _ hs))
  exact gen segs [] (fun s hs => absurd hs (List.not_mem_nil s)) hsep

theorem pathClean_abs_good (p : Str) (hp : isAbs p = true) :
    ∃ l, GoodSegs l ∧ pathClean p = absOfSegs l := by
  have hpne : p ≠ [] := by
    intro e
    subst e
    simp [isAbs] at hp
  refine ⟨cleanSegs true (splitOnChar pathSep p), ?_, ?_⟩
  · exact goodSegs_cleanSegs_true _ (fun s hs => mem_splitOnChar_not_sep pathSep p s hs)
  · unfold pathClean
    rw [if_neg hpne]
    simp only [hp]
    rfl

theorem isAbs_pathJoin2 (a b : Str) (ha : isAbs a = true) :
    isAbs (pathJoin2 a b) = true := by
  have hane : a ≠ [] := by
    intro e
    subst e
    simp [isAbs] at ha
  unfold pathJoin2
  rw [if_neg (by simp [hane])]
  rw [if_neg hane]
  by_cases hb : b = []
  · rw [if_pos hb]
    obtain ⟨l, _, hc⟩ := pathClean_abs_good a ha
    rw [hc]
    rfl
  · rw [if_neg hb]
    have : isAbs (a ++ pathSep :: b) = true := by
      cases a with
      | nil => exact absurd rfl hane
      | cons c r =>
        simp [isAbs] at ha ⊢
        exact ha
    obtain ⟨l, _, hc⟩ := pathClean_abs_good _ this
    rw [hc]
    rfl

theorem pathAbs_good (cwd p : Str) (hcwd : isAbs cwd = true) :
    ∃ l, GoodSegs l ∧ pathAbs cwd p = absOfSegs l := by
  unfold pathAbs
  by_cases hp : isAbs p
  · rw [if_pos hp]
    exact pathClean_abs_good p hp
  · rw [if_neg hp]
    have habs := isAbs_pathJoin2 cwd p hcwd
    unfold pathJoin2 at habs ⊢
    by_cases h1 : cwd = [] ∧ p = []
    · exact absurd h1.1 (by intro e; subst e; simp [isAbs] at hcwd)
    · rw [if_neg h1] at habs ⊢
      by_cases h2 : cwd = []
      · exact absurd h2 (by intro e; subst e; simp [isAbs] at hcwd)
      · rw [if_neg h2] at habs ⊢
        by_cases h3 : p = []
        · rw [if_pos h3] at habs ⊢
          exact pathClean_abs_good cwd hcwd
        · rw [if_neg h3] at habs ⊢
          apply pathClean_abs_good
          cases cwd with
          | nil => exact absurd rfl h2
          | cons c r =>
            simp [isAbs] at hcwd ⊢
            exact hcwd

theorem relSegsOf_absOfSegs (l : List Str) (hl : GoodSegs l) :
    relSegsOf (absOfSegs l) = l := by
  unfold relSegsOf
  rw [if_neg]
  · rcases splitOnChar_absOfSegs l hl with h | ⟨he, h⟩
    · rw [h]
      rw [List.filter_cons]
      simp only [decide_eq_true_eq]
      rw [if_neg (by simp)]
      apply List.filter_eq_self.mpr
      intro s hs
      simpa using (hl s hs).1
    · subst he
      rw [h]
      rfl
  · intro e
    unfold absOfSegs at e
    have : pathSep = '.' := by
      injection e with e1 _
    simp [pathSep] at this

theorem stripCommon_self_append (A B : List Str) : stripCommon A (A ++ B) = ([], B) := by
  induction A with
  | nil =>
    cases B with
    | nil => rfl
    | cons b bs => rfl
  | cons a as ih =>
    rw [List.cons_append]
    unfold stripCommon
    rw [if_pos rfl]
    exact ih

theorem stripCommon_spec (A B ar br : List Str) (h : stripCommon A B = (ar, br)) :
    ∃ C, A = C ++ ar ∧ B = C ++ br := by
  induction A generalizing B with
  | nil =>
    cases B with
    | nil =>
      unfold stripCommon at h
      injection h with h1 h2
      exact ⟨[], by simp [← h1], by simp [← h2]⟩
    | cons b bs =>
      unfold stripCommon at h
      injection h with h1 h2
      exact ⟨[], by simp [← h1], by simp [← h2]⟩
  | cons a as ih =>
    cases B with
    | nil =>
      unfold stripCommon at h
      injection h with h1 h2
      exact ⟨[], by simp [← h1], by simp [← h2]⟩
    | cons b bs =>
      unfold stripCommon at h
      by_cases hab : a = b
      · rw [if_pos hab] at h
        obtain ⟨C, hC1, hC2⟩ := ih bs h
        exact ⟨a :: C, by simp [hC1], by simp [hab, hC2]⟩
      · rw [if_neg hab] at h
        injection h with h1 h2
        exact ⟨[], by simp [← h1], by simp [← h2]⟩

theorem joinSep_ne_ddot (B : List Str) (hB : GoodSegs B) (hne : B ≠ []) :
    joinSep pathSep B ≠ ['.', '.'] := by
  cases B with
  | nil => exact absurd rfl hne
  | cons x ys =>
    cases ys with
    | nil => exact (hB x (List.mem_cons_self _ _)).2.2.1
    | cons y zs =>
      rw [joinSep]
      intro e
      have : pathSep ∈ x ++ pathSep :: joinSep pathSep (y :: zs) :=
        List.mem_append.mpr (.inr (List.mem_cons_self _ _))
      rw [e] at this
      simp [pathSep] at this

theorem joinSep_not_ddotsep (B : List Str) (hB : GoodSegs B) (hne : B ≠ []) :
    ¬ ['.', '.', pathSep].isPrefixOf (joinSep pathSep B) := by
  intro hpre
  obtain ⟨t, ht⟩ := List.isPrefixOf_iff_prefix.mp hpre
  cases B with
  | nil => exact absurd rfl hne
  | cons x ys =>
    have hx := hB x (List.mem_cons_self _ _)
    cases ys with
    | nil =>
      -- join = x
      rw [joinSep] at ht
      have : pathSep ∈ x := by
        rw [← ht]
        simp
      exact hx.2.2.2 this
    | cons y zs =>
      rw [joinSep] at ht
      -- x ++ pathSep :: rest = '.' :: '.' :: pathSep :: t
      cases hxc : x with
      | nil => exact hx.1 hxc
      | cons c rest =>
        subst hxc
        rw [List.cons_append] at ht
        injection ht.symm with hc ht1
        cases rest with
        | nil =>
          -- second char is pathSep, must equal '.'
          injection ht1.symm with hd _
          simp [pathSep] at hd
        | cons d rest2 =>
          rw [List.cons_append] at ht1
          injection ht1.symm with hd ht2
          cases rest2 with
          | nil =>
            subst hc
            subst hd
            exact hx.2.2.1 rfl
          | cons e rest3 =>
            rw [List.cons_append] at ht2
            injection ht2.symm with he _
            have : pathSep ∈ c :: d :: e :: rest3 := by
              rw [he]
              simp
            exact hx.2.2.2 this

theorem joinSep_ne_dot (B : List Str) (hB : GoodSegs B) (hne : B ≠ []) :
    joinSep pathSep B ≠ ['.'] := by
  cases B with
  | nil => exact absurd rfl hne
  | cons x ys =>
    cases ys with
    | nil => exact (hB x (List.mem_cons_self _ _)).2.1
    | cons y zs =>
      rw [joinSep]
      intro e
      have : pathSep ∈ x ++ pathSep :: joinSep pathSep (y :: zs) :=
        List.mem_append.mpr (.inr (List.mem_cons_self _ _))
      rw [e] at this
      simp [pathSep] at this

theorem pathRel_absOfSegs (A B : List Str) (hA : GoodSegs A) (hB : GoodSegs B) :
    pathRel (absOfSegs A) (absOfSegs B) =
      (if A = B then some ['.']
       else some (joinSep pathSep
         ((stripCommon A B).1.map (fun _ => ['.', '.']) ++ (stripCommon A B).2))) := by
  unfold pathRel
  rw [pathClean_absOfSegs A hA, pathClean_absOfSegs B hB]
  by_cases heq : A = B
  · rw [if_pos heq, if_pos (by rw [heq])]
  · have hsne : absOfSegs A ≠ absOfSegs B := by
      intro e
      exact heq (absOfSegs_inj A B hA hB e)
    rw [if_neg hsne, if_neg heq]
    simp only [isAbs_absOfSegs]
    rw [relSegsOf_absOfSegs A hA, relSegsOf_absOfSegs B hB]
    obtain ⟨C, hC1, hC2⟩ := stripCommon_spec A B (stripCommon A B).1 (stripCommon A B).2 rfl
    have har : ∀ s ∈ (stripCommon A B).1, GoodSeg s := by
      intro s hs
      exact hA s (hC1 ▸ List.mem_append.mpr (.inr hs))
    have hguard : (stripCommon A B).1.head? ≠ some ['.', '.'] := by
      intro hh
      cases hh2 : (stripCommon A B).1 with
      | nil => rw [hh2] at hh; simp at hh
      | cons a as =>
        rw [hh2] at hh
        simp at hh
        exact (har a (hh2 ▸ List.mem_cons_self _ _)).2.2.1 hh
    have hsegs : (stripCommon A B).1.map (fun _ => (['.', '.'] : Str)) ++ (stripCommon A B).2 ≠ [] := by
      intro e
      rw [List.append_eq_nil] at e
      have h1 : (stripCommon A B).1 = [] := by
        cases h : (stripCommon A B).1 with
        | nil => rfl
        | cons a as => rw [h] at e; simp at e
      refine heq ?_
      calc A = C ++ (stripCommon A B).1 := hC1
        _ = C := by rw [h1]; simp
        _ = C ++ (stripCommon A B).2 := by rw [e.2]; simp
        _ = B := hC2.symm
    rw [if_neg hguard, if_neg hsegs]
    simp

theorem isPathWithinDir_append (A B : List Str) (h : GoodSegs (A ++ B)) :
    isPathWithinDir (absOfSegs A) (absOfSegs (A ++ B)) = true := by
  have hA := goodSegs_of_append_left A B h
  have hB := goodSegs_of_append_right A B h
  unfold isPathWithinDir
  rw [pathRel_absOfSegs A (A ++ B) hA h]
  by_cases heq : A = A ++ B
  · rw [if_pos heq]
    simp
  · rw [if_neg heq]
    have hBne : B ≠ [] := by
      intro e
      exact heq (by simp [e])
    rw [stripCommon_self_append]
    simp only [List.map_nil, List.nil_append]
    have h1 := joinSep_ne_dot B hB hBne
    have h2 := joinSep_ne_ddot B hB hBne
    have h3 := joinSep_not_ddotsep B hB hBne
    simp only [decide_eq_true_eq]
    simp [h1, h2, h3]

theorem isPathWithinDir_prefix_of_true (A B : List Str) (hA : GoodSegs A) (hB : GoodSegs B)
    (h : isPathWithinDir (absOfSegs A) (absOfSegs B) = true) :
    ∃ D, GoodSegs D ∧ B = A ++ D := by
  unfold isPathWithinDir at h
  rw [pathRel_absOfSegs A B hA hB] at h
  by_cases heq : A = B
  · exact ⟨[], fun s hs => absurd hs (List.not_mem_nil s), by simp [heq]⟩
  · rw [if_neg heq] at h
    obtain ⟨C, hC1, hC2⟩ := stripCommon_spec A B (stripCommon A B).1 (stripCommon A B).2 rfl
    have har : (stripCommon A B).1 = [] := by
      cases hss : (stripCommon A B).1 with
      | nil => rfl
      | cons a as =>
        exfalso
        -- rel starts with a `..` segment, rejected by the guard
        rw [hss] at h
        simp only [List.map_cons, List.cons_append] at h
        have hbad : joinSep pathSep (['.', '.'] ::
            (as.map (fun _ => (['.', '.'] : Str)) ++ (stripCommon A B).2)) = ['.', '.'] ∨
            ['.', '.', pathSep].isPrefixOf (joinSep pathSep (['.', '.'] ::
              (as.map (fun _ => (['.', '.'] : Str)) ++ (stripCommon A B).2))) = true := by
          cases hrest : as.map (fun _ => (['.', '.'] : Str)) ++ (stripCommon A B).2 with
          | nil => exact .inl rfl
          | cons w ws =>
            right
            rw [joinSep]
            simp [List.isPrefixOf, pathSep]
        simp only [Bool.or_eq_true, decide_eq_true_eq, Bool.and_eq_true,
          Bool.not_eq_true'] at h
        rcases hbad with hb | hb
        · rcases h with h | h
          · rw [hb] at h
            simp [pathSep] at h
          · exact h.1 hb
        · rcases h with h | h
          · rw [List.isPrefixOf_iff_prefix] at hb
            obtain ⟨t, ht⟩ := hb
            rw [← ht] at h
            simp at h
          · exact h.2 hb
    have hac : A = C := by
      rw [hC1, har]
      simp
    refine ⟨(stripCommon A B).2, ?_, ?_⟩
    · intro s hs
      exact hB s (hC2 ▸ List.mem_append.mpr (.inr hs))
    · calc B = C ++ (stripCommon A B).2 := hC2
        _ = A ++ (stripCommon A B).2 := by rw [hac]

/-- C1: for every template, variable mapping (including values containing `..`
segments), and output directory, whenever `BuildOutputPath` succeeds the
returned path is an absolute path that extends the absolute output root by a
(possibly empty) list of well-formed segments — it never lies outside the
root.  Failure is the only other outcome. -/
theorem c1_build_output_path_confined (fs : Lstat) (cwd template : Str)
    (vars : Str → Option Str) (outDir p : Str) (hcwd : isAbs cwd = true)
    (h : BuildOutputPath fs cwd template vars outDir = .ok p) :
    isAbs p = true ∧
    ∃ A B, GoodSegs (A ++ B) ∧ pathAbs cwd outDir = absOfSegs A ∧
      p = absOfSegs (A ++ B) := by
  unfold BuildOutputPath at h
  split at h
  · cases h
  · next result hr =>
    dsimp only [] at h
    obtain ⟨A, hAgood, hA⟩ := pathAbs_good cwd outDir hcwd
    obtain ⟨B', hBgood, hB⟩ : ∃ l, GoodSegs l ∧
        resolvePathWithinBase cwd result (pathAbs cwd outDir) = absOfSegs l := by
      unfold resolvePathWithinBase
      apply pathAbs_good
      exact hcwd
    split at h
    · cases h
    · next hw =>
      rw [Bool.not_eq_true, Bool.not_eq_false] at hw
      have hB2 : resolvePathWithinBase cwd result (absOfSegs A) = absOfSegs B' := by
        rw [← hA]
        exact hB
      rw [hA, hB2] at hw
      split at h
      · cases h
      · injection h with hp
        subst hp
        obtain ⟨D, hDgood, hD⟩ := isPathWithinDir_prefix_of_true A B' hAgood hBgood hw
        rw [hB, hD]
        exact ⟨rfl, A, D, hD ▸ hBgood, hA, rfl⟩

/-- Witness for C1 at a concrete successful build. -/
theorem c1_build_output_path_confined_witness :
    isAbs (str "/o/a/s.md") = true ∧
    ∃ A B, GoodSegs (A ++ B) ∧ pathAbs (str "/cwd") (str "/o") = absOfSegs A ∧
      str "/o/a/s.md" = absOfSegs (A ++ B) :=
  c1_build_output_path_confined (fun _ => .notExist) (str "/cwd")
    (str "{out}/a/{slug}.{ext}")
    (fun k =>
      if k = str "out" then some (str "/o")
      else if k = str "slug" then some (str "s")
      else if k = str "ext" then some (str "md") else none)
    (str "/o") (str "/o/a/s.md") rfl rfl

/-- Witness for C5: one literal/placeholder pair with a brace-containing
value, rendered verbatim. -/
theorem c5_render_single_pass_witness :
    renderPathTemplate (mkTemplate [(str "a/", str "out")] (str ".md"))
      (fun k =>
        if k = str "out" then some (str "/o" ++ lbrace :: str "x" ++ [rbrace]) else none) =
      .ok (mkRendered
        (fun k =>
          if k = str "out" then some (str "/o" ++ lbrace :: str "x" ++ [rbrace]) else none)
        [(str "a/", str "out")] (str ".md")) :=
  c5_render_single_pass.1 [(str "a/", str "out")] (str ".md") _
    (by decide) (by decide) (by decide)

/-- Witness for C10 at the empty input and a concrete mixed input. -/
theorem sanitizeSegment_invariant_witness :
    sanitizeSegment [] = str "unknown" ∧
    pathSep ∉ sanitizeSegment (str " A/b.. ") ∧ sanitizeSegment (str " A/b.. ") ≠ [] :=
  ⟨(sanitizeSegment_invariant []).2.2.2.2.2.2.2.2 rfl,
   (sanitizeSegment_invariant (str " A/b.. ")).2.2.2.2.1,
   (sanitizeSegment_invariant (str " A/b.. ")).1⟩

/-! ### Lemmas for the symlink guard (C2) -/

theorem pathJoin2_absOfSegs_snoc (l : List Str) (x : Str) (hl : GoodSegs l)
    (hx : GoodSeg x) :
    pathJoin2 (absOfSegs l) x = absOfSegs (l ++ [x]) := by
  have hgood : GoodSegs (l ++ [x]) := by
    intro s hs
    rcases List.mem_append.mp hs with h | h
    · exact hl s h
    · rw [List.mem_singleton.mp h]
      exact hx
  have h1 : absOfSegs l ≠ [] := by simp [absOfSegs]
  unfold pathJoin2
  rw [if_neg (by simp [h1]), if_neg h1, if_neg hx.1]
  cases l with
  | nil =>
    show pathClean (pathSep :: pathSep :: x) = absOfSegs [x]
    unfold pathClean
    rw [if_neg (by simp)]
    have hsp : isAbs (pathSep :: pathSep :: x) = true := rfl
    simp only [hsp]
    rw [splitOnChar_cons_sep, splitOnChar_cons_sep,
      splitOnChar_no_sep pathSep x hx.2.2.2]
    show pathSep :: joinSep pathSep (cleanSegs true ([] :: [] :: [x])) = _
    unfold cleanSegs
    rw [List.foldl_cons, List.foldl_cons]
    have h0 : cleanStep true [] ([] : Str) = [] := by unfold cleanStep; simp
    rw [h0, h0, cleanFold_good true [x] (fun s hs => by
      rw [List.mem_singleton.mp hs]; exact hx) []]
    rfl
  | cons a as =>
    have : absOfSegs (a :: as) ++ pathSep :: x = absOfSegs ((a :: as) ++ [x]) := by
      unfold absOfSegs
      rw [joinSep_append_single pathSep (a :: as) x (by simp)]
      simp
    rw [this, pathClean_absOfSegs _ hgood]

theorem splitOnChar_append_last (sep : Char) (y : Str) :
    splitOnChar sep (y ++ [sep]) = splitOnChar sep y ++ [[]] := by
  induction y with
  | nil => simp [splitOnChar]
  | cons c y' ih =>
    rw [List.cons_append, splitOnChar_cons, ih, splitOnChar_cons]
    cases h : splitOnChar sep y' with
    | nil => exact absurd h (splitOnChar_ne_nil sep y')
    | cons g gs => by_cases hc : c = sep <;> simp [hc]

theorem pathClean_absOfSegs_trailing (l : List Str) (hl : GoodSegs l) :
    pathClean (absOfSegs l ++ [pathSep]) = absOfSegs l := by
  unfold pathClean
  rw [if_neg (by simp [absOfSegs])]
  have habs : isAbs (absOfSegs l ++ [pathSep]) = true := rfl
  simp only [habs]
  have hsplit : splitOnChar pathSep (absOfSegs l ++ [pathSep]) =
      splitOnChar pathSep (absOfSegs l) ++ [[]] := splitOnChar_append_last pathSep _
  rw [hsplit]
  have h0 : cleanStep true [] ([] : Str) = [] := by unfold cleanStep; simp
  rcases splitOnChar_absOfSegs l hl with h | ⟨he, h⟩
  · rw [h]
    show pathSep :: joinSep pathSep (cleanSegs true (([] :: l) ++ [[]])) = _
    unfold cleanSegs
    rw [List.foldl_append]
    have hinner : List.foldl (cleanStep true) [] ([] :: l) = l := by
      rw [List.foldl_cons, h0, cleanFold_good true l hl []]
      simp
    rw [hinner, List.foldl_cons]
    have hstep2 : cleanStep true l ([] : Str) = l := by
      unfold cleanStep
      simp
    rw [hstep2]
    rfl
  · subst he
    rw [h]
    rfl

theorem dropWhile_reverse_seg (x : Str) (hx : GoodSeg x) :
    ∀ a ∈ x.reverse, (fun c => decide (c ≠ pathSep)) a = true := by
  intro a ha
  have : a ∈ x := List.mem_reverse.mp ha
  simp only [ne_eq, decide_eq_true_eq]
  intro e
  exact hx.2.2.2 (e ▸ this)

theorem pathDir_absOfSegs_snoc (l : List Str) (x : Str) (hl : GoodSegs l)
    (hx : GoodSeg x) :
    pathDir (absOfSegs (l ++ [x])) = absOfSegs l := by
  unfold pathDir
  cases l with
  | nil =>
    show pathClean (((pathSep :: x).reverse.dropWhile (· ≠ pathSep)).reverse) = absOfSegs []
    rw [List.reverse_cons, List.dropWhile_append_of_pos (dropWhile_reverse_seg x hx)]
    rfl
  | cons a as =>
    have hj : absOfSegs ((a :: as) ++ [x]) = absOfSegs (a :: as) ++ pathSep :: x := by
      unfold absOfSegs
      rw [joinSep_append_single pathSep (a :: as) x (by simp)]
      simp
    rw [hj, List.reverse_append, List.reverse_cons, List.append_assoc,
      List.dropWhile_append_of_pos (dropWhile_reverse_seg x hx)]
    simp only [List.singleton_append]
    have hstep : List.dropWhile (fun c => decide (c ≠ pathSep))
        (pathSep :: (absOfSegs (a :: as)).reverse) =
        pathSep :: (absOfSegs (a :: as)).reverse := by
      rw [List.dropWhile_cons]
      simp
    rw [hstep, List.reverse_cons, List.reverse_reverse]
    exact pathClean_absOfSegs_trailing (a :: as) hl

/-- The expected ancestor chain of `absOfSegs r.reverse`, deepest first (the
argument is the reversed segment list, so the recursion is structural). -/
def chainRev : List Str → List Str
  | [] => [absOfSegs []]
  | x :: rest => absOfSegs ((x :: rest).reverse) :: chainRev rest

theorem chainRev_length (r : List Str) : (chainRev r).length = r.length + 1 := by
  induction r with
  | nil => rfl
  | cons x rest ih => simp [chainRev, ih]

theorem pathDir_root : pathDir (absOfSegs []) = absOfSegs [] := rfl

theorem absOfSegs_length_lt (l : List Str) (x : Str) (hx : GoodSeg x) :
    (absOfSegs l).length < (absOfSegs (l ++ [x])).length := by
  unfold absOfSegs
  simp only [List.length_cons, Nat.add_lt_add_iff_right]
  cases l with
  | nil =>
    cases hxc : x with
    | nil => exact absurd hxc hx.1
    | cons c r => simp [joinSep]
  | cons a as =>
    rw [joinSep_append_single pathSep (a :: as) x (by simp)]
    cases hxc : x with
    | nil => exact absurd hxc hx.1
    | cons c r => simp

theorem ancestorChainAux_spec (l : List Str) (hl : GoodSegs l) :
    ∀ n, n ≥ l.length + 1 → ancestorChainAux n (absOfSegs l) = chainRev l.reverse := by
  induction l using List.reverseRecOn with
  | nil =>
    intro n _
    cases n with
    | zero => rfl
    | succ m =>
      show (let parent := pathDir (absOfSegs []);
        if parent = absOfSegs [] then [absOfSegs []]
        else absOfSegs [] :: ancestorChainAux m parent) = _
      rw [pathDir_root]
      simp [chainRev]
  | append_singleton l x ih =>
    intro n hn
    rw [List.length_append, List.length_singleton] at hn
    cases n with
    | zero => omega
    | succ m =>
      have hlg : GoodSegs l := goodSegs_of_append_left l [x] hl
      have hxg : GoodSeg x := hl x (List.mem_append.mpr (.inr (List.mem_singleton_self x)))
      have hne2 : absOfSegs l ≠ absOfSegs (l ++ [x]) := by
        intro e
        have := absOfSegs_length_lt l x hxg
        rw [← e] at this
        omega
      have hd := pathDir_absOfSegs_snoc l x hlg hxg
      show (let parent := pathDir (absOfSegs (l ++ [x]));
        if parent = absOfSegs (l ++ [x]) then [absOfSegs (l ++ [x])]
        else absOfSegs (l ++ [x]) :: ancestorChainAux m parent) = _
      rw [hd]
      show (if absOfSegs l = absOfSegs (l ++ [x]) then [absOfSegs (l ++ [x])]
        else absOfSegs (l ++ [x]) :: ancestorChainAux m (absOfSegs l)) =
        chainRev (l ++ [x]).reverse
      rw [if_neg hne2, ih hlg m (by omega), List.reverse_append]
      show absOfSegs (l ++ [x]) :: chainRev l.reverse =
        absOfSegs ((x :: l.reverse).reverse) :: chainRev l.reverse
      rw [List.reverse_cons, List.reverse_reverse]

theorem ancestorChain_absOfSegs (l : List Str) (hl : GoodSegs l) :
    ancestorChain (absOfSegs l) = chainRev l.reverse := by
  unfold ancestorChain
  apply ancestorChainAux_spec l hl
  have : l.length ≤ (joinSep pathSep l).length + 1 := by
    clear hl
    induction l with
    | nil => simp
    | cons a as ih =>
      cases as with
      | nil => simp [joinSep]
      | cons b bs =>
        rw [joinSep]
        simp only [List.length_cons, List.length_append] at ih ⊢
        omega
  simp only [absOfSegs, List.length_cons]
  omega

theorem checkChain_mem_symlink (fs : Lstat) (l : List Str) (x : Str)
    (hx : x ∈ l) (hsym : fs x = .symlink) : checkChain fs l ≠ .ok () := by
  induction l with
  | nil => exact absurd hx (List.not_mem_nil x)
  | cons a rest ih =>
    unfold checkChain
    cases hr : rejectSymlinkIfExists fs a with
    | error e => simp
    | ok u =>
      rcases List.mem_cons.mp hx with he | he
      · subst he
        unfold rejectSymlinkIfExists at hr
        rw [hsym] at hr
        cases hr
      · exact ih he

theorem mem_chainRev_take (r : List Str) (k : Nat) (h2 : 2 ≤ k) (hk : k ≤ r.length) :
    absOfSegs (r.reverse.take k) ∈ (chainRev r).take (r.length - 1) := by
  induction r generalizing k with
  | nil => simp at hk; omega
  | cons x rest ih =>
    by_cases hke : k = rest.length + 1
    · have hfull : (x :: rest).reverse.take k = (x :: rest).reverse := by
        apply List.take_of_length_le
        simp [hke]
      rw [hfull]
      have hlen : rest.length ≥ 1 := by omega
      unfold chainRev
      rw [List.length_cons]
      have htake : (rest.length + 1 - 1) = (rest.length - 1) + 1 := by omega
      rw [htake, List.take_succ_cons]
      exact List.mem_cons_self _ _
    · have hkr : k ≤ rest.length := by
        simp at hk
        omega
      have hsplit : (x :: rest).reverse.take k = rest.reverse.take k := by
        rw [List.reverse_cons]
        exact List.take_append_of_le_length (by simpa using hkr)
      rw [hsplit]
      have hlen : rest.length ≥ 2 := by omega
      unfold chainRev
      rw [List.length_cons]
      have htake : (rest.length + 1 - 1) = (rest.length - 1) + 1 := by omega
      rw [htake, List.take_succ_cons]
      exact List.mem_cons_of_mem _ (ih k h2 hkr)

theorem rejectSymlinkInAncestors_symlink (fs : Lstat) (A : List Str) (k : Nat)
    (hA : GoodSegs A) (h2 : 2 ≤ k) (hk : k ≤ A.length)
    (hsym : fs (absOfSegs (A.take k)) = .symlink) :
    rejectSymlinkInAncestors fs (absOfSegs A) ≠ .ok () := by
  unfold rejectSymlinkInAncestors
  rw [pathClean_absOfSegs A hA, ancestorChain_absOfSegs A hA]
  apply checkChain_mem_symlink fs _ (absOfSegs (A.take k)) _ hsym
  rw [List.mem_reverse, chainRev_length, List.length_reverse]
  have := mem_chainRev_take A.reverse k h2 (by simpa using hk)
  rw [List.reverse_reverse, List.length_reverse] at this
  have harith : A.length + 1 - 2 = A.length - 1 := by omega
  rw [harith]
  exact this

theorem walkSegs_symlink (fs : Lstat) (B : List Str) :
    ∀ (A C : List Str), GoodSegs (A ++ B) → C <+: B → C ≠ [] →
    fs (absOfSegs (A ++ C)) = .symlink → walkSegs fs (absOfSegs A) B ≠ .ok () := by
  induction B with
  | nil =>
    intro A C _ hpre hne _
    rw [List.prefix_nil] at hpre
    exact absurd hpre hne
  | cons b rest ih =>
    intro A C hgood hpre hne hsym
    have hb : GoodSeg b := hgood b (List.mem_append.mpr (.inr (List.mem_cons_self _ _)))
    unfold walkSegs
    rw [if_neg (by
      push_neg
      exact ⟨hb.1, hb.2.1⟩)]
    rw [pathJoin2_absOfSegs_snoc A b (goodSegs_of_append_left A _ hgood) hb]
    obtain ⟨C', hC'⟩ : ∃ C', C = b :: C' := by
      cases C with
      | nil => exact absurd rfl hne
      | cons c cs =>
        obtain ⟨t, ht⟩ := hpre
        injection ht with h1 _
        exact ⟨cs, by rw [h1]⟩
    subst hC'
    show ¬ (match rejectSymlinkIfExists fs (absOfSegs (A ++ [b])) with
      | Except.error e => Except.error e
      | Except.ok _ => walkSegs fs (absOfSegs (A ++ [b])) rest) = Except.ok ()
    cases hr : rejectSymlinkIfExists fs (absOfSegs (A ++ [b])) with
    | error e => simp
    | ok u =>
      show ¬ walkSegs fs (absOfSegs (A ++ [b])) rest = Except.ok ()
      by_cases hCe : C' = []
      · subst hCe
        unfold rejectSymlinkIfExists at hr
        rw [hsym] at hr
        cases hr
      · have hpre2 : C' <+: rest := by
          obtain ⟨t, ht⟩ := hpre
          injection ht with _ h2'
          exact ⟨t, h2'⟩
        have hgood2 : GoodSegs ((A ++ [b]) ++ rest) := by
          intro s hs
          apply hgood s
          simp only [List.append_assoc, List.singleton_append] at hs ⊢
          exact hs
        have hsym2 : fs (absOfSegs ((A ++ [b]) ++ C')) = .symlink := by
          rw [List.append_assoc, List.singleton_append]
          exact hsym
        exact ih (A ++ [b]) C' hgood2 hpre2 hCe hsym2

/-- C2: the safety guard fails whenever any path component strictly between
the base and the target is a symlink (part 1), and whenever any existing
ancestor of the base with at least two segments — i.e. excluding the
filesystem root and its immediate child — is a symlink (part 2); part 3
witnesses the exclusion: with the root and its immediate child both symlinks,
the guard still succeeds. -/
theorem c2_symlink_guard :
    (∀ (fs : Lstat) (A B C : List Str), GoodSegs (A ++ B) → C <+: B → C ≠ [] → C ≠ B →
      fs (absOfSegs (A ++ C)) = .symlink →
      ensureNoSymlinkTraversal fs (absOfSegs A) (absOfSegs (A ++ B)) ≠ .ok ()) ∧
    (∀ (fs : Lstat) (A : List Str) (k : Nat) (targ : Str), GoodSegs A → 2 ≤ k →
      k ≤ A.length → fs (absOfSegs (A.take k)) = .symlink →
      ensureNoSymlinkTraversal fs (absOfSegs A) targ ≠ .ok ()) ∧
    ensureNoSymlinkTraversal
      (fun p => if p = str "/" ∨ p = str "/a" then .symlink else .other)
      (str "/a/b/c") (str "/a/b/c/d.md") = .ok () := by
  refine ⟨?_, ?_, rfl⟩
  · intro fs A B C hgood hpre hCne hCneB hsym
    have hA := goodSegs_of_append_left A B hgood
    have hB := goodSegs_of_append_right A B hgood
    have hBne : B ≠ [] := by
      intro e
      subst e
      rw [List.prefix_nil] at hpre
      exact hCne hpre
    have hAne : A ≠ A ++ B := by
      intro e
      have hlen := congrArg List.length e
      simp at hlen
      exact hBne hlen
    unfold ensureNoSymlinkTraversal
    rw [if_neg (by
      simp only [Bool.not_eq_true, not_not]
      rw [isPathWithinDir_append A B hgood]
      simp)]
    cases hanc : rejectSymlinkInAncestors fs (absOfSegs A) with
    | error e => simp
    | ok u =>
      have hrel : pathRel (absOfSegs A) (absOfSegs (A ++ B)) =
          some (joinSep pathSep B) := by
        rw [pathRel_absOfSegs A (A ++ B) hA hgood, if_neg hAne, stripCommon_self_append]
        simp
      rw [hrel]
      simp only []
      rw [if_neg (joinSep_ne_dot B hB hBne)]
      rw [split_joinSep pathSep B (fun s hs => (hB s hs).2.2.2) hBne]
      exact walkSegs_symlink fs B A C hgood hpre hCne hsym
  · intro fs A k targ hA h2 hk hsym
    unfold ensureNoSymlinkTraversal
    by_cases hw : isPathWithinDir (absOfSegs A) targ = true
    · rw [if_neg (by simpa using hw)]
      cases hanc : rejectSymlinkInAncestors fs (absOfSegs A) with
      | error e => simp
      | ok u =>
        exact absurd hanc (by
          cases u
          exact rejectSymlinkInAncestors_symlink fs A k hA h2 hk hsym)
    · rw [if_pos (by simpa using hw)]
      simp

instance (s : Str) : Decidable (GoodSeg s) := by
  unfold GoodSeg
  infer_instance

instance (l : List Str) : Decidable (GoodSegs l) := by
  unfold GoodSegs
  infer_instance

/-- Witness for C2 at a concrete base, target and filesystem. -/
theorem c2_symlink_guard_witness :
    ensureNoSymlinkTraversal
      (fun p => if p = absOfSegs [str "o", str "x"] then .symlink else .other)
      (absOfSegs [str "o"]) (absOfSegs [str "o", str "x", str "y.md"]) ≠ .ok () ∧
    ensureNoSymlinkTraversal
      (fun p => if p = absOfSegs [str "u", str "v"] then .symlink else .other)
      (absOfSegs [str "u", str "v", str "w"]) (str "/u/v/w/t.md") ≠ .ok () :=
  ⟨c2_symlink_guard.1
    (fun p => if p = absOfSegs [str "o", str "x"] then .symlink else .other)
    [str "o"] [str "x", str "y.md"] [str "x"]
    (by decide) (by decide) (by decide) (by decide) (by decide),
   c2_symlink_guard.2.1
    (fun p => if p = absOfSegs [str "u", str "v"] then .symlink else .other)
    [str "u", str "v", str "w"] 2 (str "/u/v/w/t.md")
    (by decide) (by decide) (by decide) (by decide)⟩

/-! ### Lemmas about category normalization (C9) -/

theorem strLeB_total (a b : Str) : strLeB a b = true ∨ strLeB b a = true := by
  induction a generalizing b with
  | nil => exact .inl rfl
  | cons x xs ih =>
    cases b with
    | nil => exact .inr rfl
    | cons y ys =>
      by_cases hxy : x = y
      · subst hxy
        rcases ih ys with h | h
        · exact .inl (by simp [strLeB, h])
        · exact .inr (by simp [strLeB, h])
      · rcases lt_or_gt_of_ne hxy with h | h
        · exact .inl (by simp [strLeB, hxy, h])
        · exact .inr (by
            have hyx : y ≠ x := fun e => hxy e.symm
            simp [strLeB, hyx, h])

theorem strLeB_trans (a b c : Str) (h1 : strLeB a b = true) (h2 : strLeB b c = true) :
    strLeB a c = true := by
  induction a generalizing b c with
  | nil => rfl
  | cons x xs ih =>
    cases b with
    | nil => simp [strLeB] at h1
    | cons y ys =>
      cases c with
      | nil => simp [strLeB] at h2
      | cons z zs =>
        by_cases hxy : x = y
        · subst hxy
          rw [strLeB, if_pos rfl] at h1
          by_cases hyz : x = z
          · subst hyz
            rw [strLeB, if_pos rfl] at h2 ⊢
            exact ih ys zs h1 h2
          · rw [strLeB, if_neg hyz] at h2 ⊢
            exact h2
        · rw [strLeB, if_neg hxy] at h1
          by_cases hyz : y = z
          · subst hyz
            rw [strLeB, if_neg hxy]
            exact h1
          · rw [strLeB, if_neg hyz] at h2
            have hxz : x < z := lt_trans (of_decide_eq_true h1) (of_decide_eq_true h2)
            have hxzne : x ≠ z := ne_of_lt hxz
            rw [strLeB, if_neg hxzne]
            exact decide_eq_true hxz

theorem normCatTokens_invariant (toks : List Str) (set : List Str)
    (hset : ∀ c ∈ set, c ∈ defaultCategories) :
    (∀ out, normCatTokens toks set = .ok (some out) → ∀ c ∈ out, c ∈ defaultCategories) ∧
    (∀ e, normCatTokens toks set = .error e →
      ∃ cat, e = .validation (str "unsupported category: " ++ cat) ∧
        cat ∉ defaultCategories) := by
  induction toks generalizing set with
  | nil =>
    constructor
    · intro out hout
      unfold normCatTokens at hout
      injection hout with h
      injection h with h
      exact h ▸ hset
    · intro e he
      unfold normCatTokens at he
      cases he
  | cons t ts ih =>
    constructor
    · intro out hout
      unfold normCatTokens at hout
      by_cases h1 : toLowerStr (trimSpace t) = []
      · rw [if_pos h1] at hout
        exact (ih set hset).1 out hout
      · rw [if_neg h1] at hout
        by_cases h2 : toLowerStr (trimSpace t) = str "all"
        · rw [if_pos h2] at hout
          injection hout with h
          cases h
        · rw [if_neg h2] at hout
          by_cases h3 : toLowerStr (trimSpace t) ∈ defaultCategories
          · rw [if_pos h3] at hout
            refine (ih _ ?_).1 out hout
            by_cases h4 : toLowerStr (trimSpace t) ∈ set
            · rw [if_pos h4]
              exact hset
            · rw [if_neg h4]
              intro c hc
              rcases List.mem_append.mp hc with h | h
              · exact hset c h
              · rw [List.mem_singleton.mp h]
                exact h3
          · rw [if_neg h3] at hout
            cases hout
    · intro e he
      unfold normCatTokens at he
      by_cases h1 : toLowerStr (trimSpace t) = []
      · rw [if_pos h1] at he
        exact (ih set hset).2 e he
      · rw [if_neg h1] at he
        by_cases h2 : toLowerStr (trimSpace t) = str "all"
        · rw [if_pos h2] at he
          cases he
        · rw [if_neg h2] at he
          by_cases h3 : toLowerStr (trimSpace t) ∈ defaultCategories
          · rw [if_pos h3] at he
            refine (ih _ ?_).2 e he
            by_cases h4 : toLowerStr (trimSpace t) ∈ set
            · rw [if_pos h4]
              exact hset
            · rw [if_neg h4]
              intro c hc
              rcases List.mem_append.mp hc with h | h
              · exact hset c h
              · rw [List.mem_singleton.mp h]
                exact h3
          · rw [if_neg h3] at he
            injection he with h
            exact ⟨toLowerStr (trimSpace t), h.symm, h3⟩

theorem normCatLoop_invariant (input : List Str) (set : List Str)
    (hset : ∀ c ∈ set, c ∈ defaultCategories) :
    (∀ out, normCatLoop input set = .ok (some out) → ∀ c ∈ out, c ∈ defaultCategories) ∧
    (∀ e, normCatLoop input set = .error e →
      ∃ cat, e = .validation (str "unsupported category: " ++ cat) ∧
        cat ∉ defaultCategories) := by
  induction input generalizing set with
  | nil =>
    constructor
    · intro out hout
      unfold normCatLoop at hout
      injection hout with h
      injection h with h
      exact h ▸ hset
    · intro e he
      unfold normCatLoop at he
      cases he
  | cons raw rest ih =>
    constructor
    · intro out hout
      unfold normCatLoop at hout
      cases htok : normCatTokens (splitOnChar ',' raw) set with
      | error e =>
        rw [htok] at hout
        cases hout
      | ok o =>
        rw [htok] at hout
        cases o with
        | none => injection hout with h; cases h
        | some set' =>
          exact (ih set' ((normCatTokens_invariant _ set hset).1 set' htok)).1 out hout
    · intro e he
      unfold normCatLoop at he
      cases htok : normCatTokens (splitOnChar ',' raw) set with
      | error e' =>
        rw [htok] at he
        injection he with h
        exact h ▸ (normCatTokens_invariant _ set hset).2 e' htok
      | ok o =>
        rw [htok] at he
        cases o with
        | none => cases he
        | some set' =>
          exact (ih set' ((normCatTokens_invariant _ set hset).1 set' htok)).2 e he

theorem normCatTokens_all_ok (toks : List Str) (set : List Str)
    (hnoall : ∀ t ∈ toks, toLowerStr (trimSpace t) ≠ str "all")
    (hgood : ∀ t ∈ toks, toLowerStr (trimSpace t) = [] ∨
      toLowerStr (trimSpace t) ∈ defaultCategories) :
    ∃ set', normCatTokens toks set = .ok (some set') := by
  induction toks generalizing set with
  | nil => exact ⟨set, rfl⟩
  | cons t ts ih =>
    unfold normCatTokens
    by_cases h1 : toLowerStr (trimSpace t) = []
    · rw [if_pos h1]
      exact ih set (fun u hu => hnoall u (List.mem_cons_of_mem _ hu))
        (fun u hu => hgood u (List.mem_cons_of_mem _ hu))
    · rw [if_neg h1]
      rw [if_neg (hnoall t (List.mem_cons_self _ _))]
      rcases hgood t (List.mem_cons_self _ _) with h | h
      · exact absurd h h1
      · rw [if_pos h]
        exact ih _ (fun u hu => hnoall u (List.mem_cons_of_mem _ hu))
          (fun u hu => hgood u (List.mem_cons_of_mem _ hu))

theorem normCatTokens_fails (toks : List Str) (set : List Str)
    (hnoall : ∀ t ∈ toks, toLowerStr (trimSpace t) ≠ str "all")
    (hbad : ∃ t ∈ toks, toLowerStr (trimSpace t) ≠ [] ∧
      toLowerStr (trimSpace t) ∉ defaultCategories) :
    ∃ e, normCatTokens toks set = .error e := by
  induction toks generalizing set with
  | nil =>
    obtain ⟨t, ht, _⟩ := hbad
    exact absurd ht (List.not_mem_nil t)
  | cons t ts ih =>
    unfold normCatTokens
    by_cases h1 : toLowerStr (trimSpace t) = []
    · rw [if_pos h1]
      apply ih set (fun u hu => hnoall u (List.mem_cons_of_mem _ hu))
      obtain ⟨u, hu, hne, hni⟩ := hbad
      rcases List.mem_cons.mp hu with he | he
      · subst he
        exact absurd h1 hne
      · exact ⟨u, he, hne, hni⟩
    · rw [if_neg h1]
      rw [if_neg (hnoall t (List.mem_cons_self _ _))]
      by_cases h3 : toLowerStr (trimSpace t) ∈ defaultCategories
      · rw [if_pos h3]
        apply ih _ (fun u hu => hnoall u (List.mem_cons_of_mem _ hu))
        obtain ⟨u, hu, hne, hni⟩ := hbad
        rcases List.mem_cons.mp hu with he | he
        · subst he
          exact absurd h3 hni
        · exact ⟨u, he, hne, hni⟩
      · rw [if_neg h3]
        exact ⟨_, rfl⟩

theorem normCatLoop_fails (input : List Str) (set : List Str)
    (hnoall : ∀ raw ∈ input, ∀ t ∈ splitOnChar ',' raw,
      toLowerStr (trimSpace t) ≠ str "all")
    (hbad : ∃ raw ∈ input, ∃ t ∈ splitOnChar ',' raw,
      toLowerStr (trimSpace t) ≠ [] ∧ toLowerStr (trimSpace t) ∉ defaultCategories) :
    ∃ e, normCatLoop input set = .error e := by
  induction input generalizing set with
  | nil =>
    obtain ⟨raw, hraw, _⟩ := hbad
    exact absurd hraw (List.not_mem_nil raw)
  | cons raw rest ih =>
    unfold normCatLoop
    by_cases hrawbad : ∃ t ∈ splitOnChar ',' raw, toLowerStr (trimSpace t) ≠ [] ∧
        toLowerStr (trimSpace t) ∉ defaultCategories
    · obtain ⟨e, he⟩ := normCatTokens_fails (splitOnChar ',' raw) set
        (hnoall raw (List.mem_cons_self _ _)) hrawbad
      rw [he]
      exact ⟨e, rfl⟩
    · push_neg at hrawbad
      obtain ⟨set', hset'⟩ := normCatTokens_all_ok (splitOnChar ',' raw) set
        (hnoall raw (List.mem_cons_self _ _))
        (fun t ht => by
          by_cases h : toLowerStr (trimSpace t) = []
          · exact .inl h
          · exact .inr (hrawbad t ht h))
      rw [hset']
      apply ih set' (fun r hr => hnoall r (List.mem_cons_of_mem _ hr))
      obtain ⟨r, hr, t, ht, hne, hni⟩ := hbad
      rcases List.mem_cons.mp hr with he | he
      · subst he
        exact absurd (hrawbad t ht hne) hni
      · exact ⟨r, he, t, ht, hne, hni⟩

/-- C9 counterexample: the claim as stated is false on the code.  An `all`
token short-circuits validation, so the unsupported category `bogus` is
accepted, and the list derived from `all` is the default list in declaration
order, which is not lexicographically sorted. -/
theorem c9_claim_counterexample :
    normalizeCategories [str "all", str "bogus"] = .ok defaultCategories ∧
    ¬ List.Sorted (fun a b => strLeB a b = true) defaultCategories :=
  ⟨rfl, by decide⟩

/-- C9 (amended): every successful normalization yields either the fixed
default list (for empty input or an `all` token) or the explicitly supplied
categories, deduplicated, all drawn from the allow-list and sorted
lexicographically; every failure is a ValidationError naming an unsupported
category; when no `all` token occurs and some token is unsupported,
normalization does fail; and option validation passes the normalized
categories through to the export. -/
theorem c9_normalize_categories_amended :
    (∀ input out, normalizeCategories input = .ok out →
      (∀ c ∈ out, c ∈ defaultCategories) ∧
      (out = defaultCategories ∨
        List.Sorted (fun a b => strLeB a b = true) out)) ∧
    (∀ input e, normalizeCategories input = .error e →
      ∃ cat, e = .validation (str "unsupported category: " ++ cat) ∧
        cat ∉ defaultCategories) ∧
    (∀ input, (∀ raw ∈ input, ∀ t ∈ splitOnChar ',' raw,
        toLowerStr (trimSpace t) ≠ str "all") →
      (∃ raw ∈ input, ∃ t ∈ splitOnChar ',' raw,
        toLowerStr (trimSpace t) ≠ [] ∧ toLowerStr (trimSpace t) ∉ defaultCategories) →
      ∃ e, normalizeCategories input = .error e) ∧
    normalizeCategories [] = .ok defaultCategories ∧
    (∀ cwd o o', validateExportOptions cwd o = .ok o' →
      normalizeCategories o.categories = .ok o'.categories) := by
  have hdef : ∀ c ∈ defaultCategories, c ∈ defaultCategories := fun c hc => hc
  refine ⟨?_, ?_, ?_, rfl, ?_⟩
  · intro input out hout
    unfold normalizeCategories at hout
    by_cases h0 : input = []
    · rw [if_pos h0] at hout
      injection hout with h
      exact ⟨h ▸ hdef, .inl h.symm⟩
    · rw [if_neg h0] at hout
      cases hl : normCatLoop input [] with
      | error e =>
        rw [hl] at hout
        cases hout
      | ok o =>
        rw [hl] at hout
        cases o with
        | none =>
          injection hout with h
          exact ⟨h ▸ hdef, .inl h.symm⟩
        | some set =>
          simp only [] at hout
          by_cases hs : set = []
          · rw [if_pos hs] at hout
            injection hout with h
            exact ⟨h ▸ hdef, .inl h.symm⟩
          · rw [if_neg hs] at hout
            injection hout with h
            have hmem := (normCatLoop_invariant input []
              (fun c hc => absurd hc (List.not_mem_nil c))).1 set hl
            constructor
            · intro c hc
              apply hmem
              rw [← h] at hc
              exact (List.perm_insertionSort _ set).mem_iff.mp hc
            · right
              rw [← h]
              haveI : IsTotal Str (fun a b => strLeB a b = true) := ⟨strLeB_total⟩
              haveI : IsTrans Str (fun a b => strLeB a b = true) :=
                ⟨fun a b c => strLeB_trans a b c⟩
              exact List.sorted_insertionSort _ set
  · intro input e he
    unfold normalizeCategories at he
    by_cases h0 : input = []
    · rw [if_pos h0] at he
      cases he
    · rw [if_neg h0] at he
      cases hl : normCatLoop input [] with
      | error e' =>
        rw [hl] at he
        injection he with h
        exact h ▸ (normCatLoop_invariant input []
          (fun c hc => absurd hc (List.not_mem_nil c))).2 e' hl
      | ok o =>
        rw [hl] at he
        cases o with
        | none => cases he
        | some set =>
          simp only [] at he
          by_cases hs : set = [] <;> simp [hs] at he
  · intro input hnoall hbad
    have h0 : input ≠ [] := by
      intro e
      subst e
      obtain ⟨raw, hraw, _⟩ := hbad
      exact absurd hraw (List.not_mem_nil raw)
    obtain ⟨e, he⟩ := normCatLoop_fails input [] hnoall hbad
    unfold normalizeCategories
    rw [if_neg h0, he]
    exact ⟨e, rfl⟩
  · intro cwd o o' h
    unfold validateExportOptions at h
    split at h
    · cases h
    · split at h
      · cases h
      · split at h
        · cases h
        · split at h
          · cases h
          · rename_i x0 cats0 hcats
            split at h
            · cases h
            · injection h with h
              rw [← h]
              exact hcats

/-- Witness for C9 (amended) at concrete inputs: explicit categories come out
sorted and allow-listed; an unsupported category with no `all` token fails. -/
theorem c9_normalize_categories_amended_witness :
    ((∀ c ∈ [str "guides", str "resources"], c ∈ defaultCategories) ∧
      ([str "guides", str "resources"] = defaultCategories ∨
        List.Sorted (fun a b => strLeB a b = true) [str "guides", str "resources"])) ∧
    (∃ e, normalizeCategories [str "bogus"] = .error e) :=
  ⟨c9_normalize_categories_amended.1 [str "resources", str "guides"]
      [str "guides", str "resources"] rfl,
   c9_normalize_categories_amended.2.2.1 [str "bogus"] (by decide) (by decide)⟩

/-! ### Helper lemmas for the effect monad -/

theorem ExpM_bind_apply (m : ExpM σ α) (f : α → ExpM σ β) (s : ExpState σ) :
    (m >>= f) s =
      match m s with
      | (.ok a, s') => f a s'
      | (.error e, s') => (.error e, s') := rfl

theorem ExpM_pure_apply (a : α) (s : ExpState σ) :
    (pure a : ExpM σ α) s = (.ok a, s) := rfl

/-- A computation whose only effects are registry requests: the events grow by
net events only. -/
def NetOnly (m : ExpM σ α) : Prop :=
  ∀ s r s', m s = (r, s') →
    ∃ Δ, s'.events = s.events ++ Δ ∧ ∀ ev ∈ Δ, ev.isNet = true

theorem netOnly_pure (a : α) : NetOnly (pure a : ExpM σ α) := by
  intro s r s' h
  rw [ExpM_pure_apply] at h
  injection h with h1 h2
  exact ⟨[], by simp [← h2], by simp⟩

theorem netOnly_throwE (e : ExpErr) : NetOnly (throwE e : ExpM σ α) := by
  intro s r s' h
  unfold throwE at h
  injection h with h1 h2
  exact ⟨[], by simp [← h2], by simp⟩

theorem netOnly_expOfExcept (x : Except ExpErr α) : NetOnly (expOfExcept x : ExpM σ α) := by
  intro s r s' h
  unfold expOfExcept at h
  injection h with h1 h2
  exact ⟨[], by simp [← h2], by simp⟩

theorem netOnly_liftClient (f : σ → Except Str β × σ) :
    NetOnly (liftClient f : ExpM σ β) := by
  intro s r s' h
  unfold liftClient at h
  cases hf : f s.cs with
  | mk fr cs' =>
    rw [hf] at h
    cases fr with
    | ok b =>
      injection h with h1 h2
      exact ⟨[], by simp [← h2], by simp⟩
    | error e =>
      injection h with h1 h2
      exact ⟨[], by simp [← h2], by simp⟩

theorem netOnly_bind (m : ExpM σ α) (f : α → ExpM σ β) (hm : NetOnly m)
    (hf : ∀ a, NetOnly (f a)) : NetOnly (m >>= f) := by
  intro s r s' h
  rw [ExpM_bind_apply] at h
  cases hm' : m s with
  | mk mr ms =>
    rw [hm'] at h
    cases mr with
    | ok a =>
      obtain ⟨Δ1, hΔ1, hn1⟩ := hm s _ _ hm'
      obtain ⟨Δ2, hΔ2, hn2⟩ := hf a ms r s' h
      refine ⟨Δ1 ++ Δ2, ?_, ?_⟩
      · rw [hΔ2, hΔ1, List.append_assoc]
      · intro ev hev
        rcases List.mem_append.mp hev with h' | h'
        · exact hn1 ev h'
        · exact hn2 ev h'
    | error e =>
      injection h with h1 h2
      subst h2
      exact hm s _ _ hm'

theorem netOnly_emit_net (ev : Event) (hn : ev.isNet = true) :
    NetOnly (emit ev : ExpM σ Unit) := by
  intro s r s' h
  unfold emit at h
  injection h with h1 h2
  exact ⟨[ev], by simp [← h2], by simpa using hn⟩

theorem netOnly_callGetJSONVersions (w : World σ) (p : Str) :
    NetOnly (callGetJSONVersions w p) :=
  netOnly_bind _ _ (netOnly_emit_net _ rfl) (fun _ => netOnly_liftClient _)

theorem netOnly_callGetJSONDocs (w : World σ) (p : Str) :
    NetOnly (callGetJSONDocs w p) :=
  netOnly_bind _ _ (netOnly_emit_net _ rfl) (fun _ => netOnly_liftClient _)

theorem netOnly_callGetJSONDetail (w : World σ) (p : Str) :
    NetOnly (callGetJSONDetail w p) :=
  netOnly_bind _ _ (netOnly_emit_net _ rfl) (fun _ => netOnly_liftClient _)

theorem netOnly_callGetRaw (w : World σ) (p : Str) :
    NetOnly (callGetRaw w p) :=
  netOnly_bind _ _ (netOnly_emit_net _ rfl) (fun _ => netOnly_liftClient _)

theorem netOnly_getProviderDocDetail (w : World σ) (docID : Str) :
    NetOnly (getProviderDocDetail w docID) := by
  unfold getProviderDocDetail
  apply netOnly_bind _ _ (netOnly_callGetRaw w _)
  intro raw
  cases w.parseDetail raw with
  | some detail => exact netOnly_pure _
  | none =>
    apply netOnly_bind _ _ (netOnly_callGetJSONDetail w _)
    intro detail
    exact netOnly_bind _ _ (netOnly_callGetRaw w _) (fun _ => netOnly_pure _)

theorem netOnly_resolveProviderVersionID (w : World σ) (ns provider version : Str) :
    NetOnly (resolveProviderVersionID w ns provider version) := by
  unfold resolveProviderVersionID
  apply netOnly_bind _ _ (netOnly_callGetJSONVersions w _)
  intro resp
  cases resp.find? (fun e => e.typ = str "provider-versions" ∧ e.version = version) with
  | some e => exact netOnly_pure _
  | none => exact netOnly_throwE _

theorem netOnly_processDoc (w : World σ) (opts : ExportOptions) (ext category : Str)
    (doc : DocSummary) (st : PlanState) :
    NetOnly (processDoc w opts ext category doc st) := by
  unfold processDoc
  by_cases hseen : doc.id ∈ st.seen
  · simp only [if_pos hseen]
    exact netOnly_pure _
  · simp only [if_neg hseen]
    apply netOnly_bind _ _ (netOnly_getProviderDocDetail w _)
    intro dr
    obtain ⟨detail, raw⟩ := dr
    simp only []
    split
    · exact netOnly_throwE _
    · split
      · split
        · exact netOnly_throwE _
        · exact netOnly_throwE _
      · split
        · exact netOnly_throwE _
        · exact netOnly_pure _

theorem netOnly_processDocs (w : World σ) (opts : ExportOptions) (ext category : Str)
    (docs : List DocSummary) :
    ∀ st, NetOnly (processDocs w opts ext category docs st) := by
  induction docs with
  | nil => intro st; exact netOnly_pure _
  | cons doc rest ih =>
    intro st
    unfold processDocs
    exact netOnly_bind _ _ (netOnly_processDoc w opts ext category doc st) ih

theorem netOnly_pageLoop (w : World σ) (opts : ExportOptions) (ext : Str)
    (pvid category : Str) (fuel : Nat) :
    ∀ page st, NetOnly (pageLoop w opts ext pvid category fuel page st) := by
  induction fuel with
  | zero => intro page st; exact netOnly_throwE _
  | succ n ih =>
    intro page st
    unfold pageLoop
    apply netOnly_bind _ _ (netOnly_callGetJSONDocs w _)
    intro docs
    by_cases hd : docs = []
    · simp only [if_pos hd]
      exact netOnly_pure _
    · simp only [if_neg hd]
      exact netOnly_bind _ _ (netOnly_processDocs w opts ext category docs st)
        (fun st' => ih (page + 1) st')

theorem netOnly_planCategories (w : World σ) (opts : ExportOptions) (ext : Str)
    (pvid : Str) (fuel : Nat) (cats : List Str) :
    ∀ st, NetOnly (planCategories w opts ext pvid fuel cats st) := by
  induction cats with
  | nil => intro st; exact netOnly_pure _
  | cons c rest ih =>
    intro st
    unfold planCategories
    exact netOnly_bind _ _ (netOnly_pageLoop w opts ext pvid c fuel 1 st) ih

/-! ### C6: validation before any effect -/

/-- A world whose client always fails and whose filesystem is empty; used to
show that validation failures occur before anything is consulted. -/
def unitWorld : World Unit where
  getJSONVersions := fun _ s => (.error (str "unused"), s)
  getJSONDocs := fun _ s => (.error (str "unused"), s)
  getJSONDetail := fun _ s => (.error (str "unused"), s)
  getRaw := fun _ s => (.error (str "unused"), s)
  parseDetail := fun _ => none
  reencodeJSON := fun _ => none
  marshalManifest := fun _ => []
  nowRFC3339 := []
  lstat := fun _ => .notExist
  cwd := str "/cwd"

/-- Options with an undefined `unknown` placeholder in the path template. -/
def unknownPlaceholderOptions : ExportOptions :=
  { ns := str "hashicorp", name := str "aws", version := str "6.31.0",
    format := str "markdown", outDir := str "/out", categories := [str "guides"],
    pathTemplate := str "{out}/docs/{unknown}/{slug}.{ext}", clean := true }

/-- C6: option validation and path-template validation run before any network
request and any filesystem mutation: if `prepareExportOptions` fails, the
whole export returns that error with the state untouched — no request issued,
no event recorded, regardless of what the registry would have answered (in
particular even when it would have returned zero documents).  The second
conjunct shows a template with the undefined placeholder `unknown` failing
with the `unresolved placeholder` validation error. -/
theorem c6_validation_before_effects :
    (∀ (σ : Type) (w : World σ) (fuel : Nat) (opts0 : ExportOptions) (e : ExpErr)
      (s : ExpState σ), prepareExportOptions w.lstat w.cwd opts0 = .error e →
      ExportDocs w fuel opts0 s = (.error e, s)) ∧
    prepareExportOptions (fun _ => .notExist) (str "/cwd") unknownPlaceholderOptions =
      .error (.validation (str "unresolved placeholder in path template: {unknown}")) := by
  constructor
  · intro σ w fuel opts0 e s h
    unfold ExportDocs
    rw [ExpM_bind_apply]
    have h1 : expOfExcept (σ := σ) (prepareExportOptions w.lstat w.cwd opts0) s =
        (.error e, s) := by
      unfold expOfExcept
      rw [h]
    rw [h1]
  · rfl

/-- Witness for C6: the failing options produce the validation error and an
unchanged state through the full export entry point. -/
theorem c6_validation_before_effects_witness :
    ExportDocs unitWorld 1 unknownPlaceholderOptions ⟨(), []⟩ =
      (.error (.validation (str "unresolved placeholder in path template: {unknown}")),
       ⟨(), []⟩) :=
  c6_validation_before_effects.1 Unit unitWorld 1 unknownPlaceholderOptions _ ⟨(), []⟩
    c6_validation_before_effects.2

/-! ### C7: NotFound version resolution precedes all mutation -/

/-- C7: if options validate but the requested exact version is absent from the
version-listing response, the export fails with the `NotFoundError` — not a
`ValidationError` — and the only event of the whole run is the one version
request: no clean deletion and no write happens, even with the clean flag
set. -/
theorem c7_version_not_found (σ : Type) (w : World σ) (fuel : Nat)
    (opts0 opts : ExportOptions) (ext : Str) (s : ExpState σ)
    (resp : List VersionEntry) (cs2 : σ)
    (hprep : prepareExportOptions w.lstat w.cwd opts0 = .ok (opts, ext))
    (hresp : w.getJSONVersions (versionsPath opts.ns opts.name) s.cs = (.ok resp, cs2))
    (hnm : ∀ x ∈ resp, ¬ (x.typ = str "provider-versions" ∧ x.version = opts.version)) :
    ExportDocs w fuel opts0 s =
      (.error (.notFound (str "provider version not found: " ++ opts.ns ++ str "/" ++
        opts.name ++ str "@" ++ opts.version)),
       ⟨cs2, s.events ++ [.netGetJSON (versionsPath opts.ns opts.name)]⟩) := by
  unfold ExportDocs
  rw [ExpM_bind_apply]
  have h1 : expOfExcept (σ := σ) (prepareExportOptions w.lstat w.cwd opts0) s =
      (.ok (opts, ext), s) := by
    unfold expOfExcept
    rw [hprep]
  rw [h1]
  simp only []
  rw [ExpM_bind_apply]
  have h3 : callGetJSONVersions w (versionsPath opts.ns opts.name) s =
      (.ok resp, ⟨cs2, s.events ++ [.netGetJSON (versionsPath opts.ns opts.name)]⟩) := by
    unfold callGetJSONVersions
    rw [ExpM_bind_apply]
    have he : emit (σ := σ) (.netGetJSON (versionsPath opts.ns opts.name)) s =
        (.ok (), ⟨s.cs, s.events ++ [.netGetJSON (versionsPath opts.ns opts.name)]⟩) := rfl
    rw [he]
    unfold liftClient
    simp only []
    rw [hresp]
  have h2 : resolveProviderVersionID w opts.ns opts.name opts.version s =
      (.error (.notFound (str "provider version not found: " ++ opts.ns ++ str "/" ++
        opts.name ++ str "@" ++ opts.version)),
       ⟨cs2, s.events ++ [.netGetJSON (versionsPath opts.ns opts.name)]⟩) := by
    unfold resolveProviderVersionID
    rw [ExpM_bind_apply, h3]
    simp only []
    have hfind : resp.find?
        (fun e => e.typ = str "provider-versions" ∧ e.version = opts.version) = none := by
      apply List.find?_eq_none.mpr
      intro x hx
      simpa using hnm x hx
    rw [hfind]
    rfl
  rw [h2]

/-- The versions response for the C7 witness lacks version 6.31.0. -/
def c7World : World Unit :=
  { unitWorld with
    getJSONVersions := fun _ s =>
      (.ok [⟨str "provider-versions", str "70800", str "0.0.1"⟩], s) }

/-- The options for the C7 witness, with the clean flag set. -/
def c7Options : ExportOptions :=
  { ns := str "hashicorp", name := str "aws", version := str "6.31.0",
    format := str "markdown", outDir := str "/out", categories := [str "guides"],
    pathTemplate := [], clean := true }

/-- The normalized options produced by validation for the C7 witness. -/
def c7NormOptions : ExportOptions :=
  { ns := str "hashicorp", name := str "aws", version := str "6.31.0",
    format := str "markdown", outDir := str "/out", categories := [str "guides"],
    pathTemplate := DefaultPathTemplate, clean := true }

/-- Witness for C7: the concrete run fails with NotFound after exactly one
registry request and performs no filesystem mutation. -/
theorem c7_version_not_found_witness :
    ExportDocs c7World 1 c7Options ⟨(), []⟩ =
      (.error (.notFound (str "provider version not found: " ++ str "hashicorp" ++
        str "/" ++ str "aws" ++ str "@" ++ str "6.31.0")),
       ⟨(), [] ++ [.netGetJSON (versionsPath (str "hashicorp") (str "aws"))]⟩) :=
  c7_version_not_found Unit c7World 1 c7Options c7NormOptions (str "md") ⟨(), []⟩
    [⟨str "provider-versions", str "70800", str "0.0.1"⟩] () rfl rfl (by decide)

/-! ### C3/C4: traces of the write phases -/

/-- The paths of the `writeFile` events of a trace. -/
def writtenPaths (evs : List Event) : List Str :=
  evs.filterMap (fun ev => match ev with | .writeFile p _ => some p | _ => none)

theorem writtenPaths_append (a b : List Event) :
    writtenPaths (a ++ b) = writtenPaths a ++ writtenPaths b := by
  unfold writtenPaths
  exact List.filterMap_append a b _

theorem writtenPaths_net (Δ : List Event) (h : ∀ ev ∈ Δ, ev.isNet = true) :
    writtenPaths Δ = [] := by
  induction Δ with
  | nil => rfl
  | cons ev rest ih =>
    have hev := h ev (List.mem_cons_self _ _)
    cases ev with
    | netGetJSON p => exact ih (fun e he => h e (List.mem_cons_of_mem _ he))
    | netGet p => exact ih (fun e he => h e (List.mem_cons_of_mem _ he))
    | mkdirAll p => simp [Event.isNet] at hev
    | writeFile p c => simp [Event.isNet] at hev
    | removeAll p => simp [Event.isNet] at hev

theorem bind_ok_decompose (m : ExpM σ α) (f : α → ExpM σ β) (s s'' : ExpState σ)
    (b : β) (h : (m >>= f) s = (.ok b, s'')) :
    ∃ a s₁, m s = (.ok a, s₁) ∧ f a s₁ = (.ok b, s'') := by
  rw [ExpM_bind_apply] at h
  cases hm : m s with
  | mk mr ms =>
    rw [hm] at h
    cases mr with
    | ok a => exact ⟨a, ms, rfl, h⟩
    | error e =>
      simp at h

theorem lookupOwner_append_of_some (owners more : List (Str × Str)) (p : Str) (v : Str)
    (h : lookupOwner owners p = some v) : lookupOwner (owners ++ more) p = some v := by
  unfold lookupOwner at h ⊢
  rw [List.find?_append]
  cases hf : owners.find? (fun kv => kv.1 = p) with
  | none => rw [hf] at h; cases h
  | some kv =>
    rw [hf] at h
    simpa using h

theorem lookupOwner_append_self (owners : List (Str × Str)) (p v : Str)
    (h : lookupOwner owners p = none) :
    lookupOwner (owners ++ [(p, v)]) p = some v := by
  unfold lookupOwner at h ⊢
  rw [List.find?_append]
  cases hf : owners.find? (fun kv => kv.1 = p) with
  | some kv => rw [hf] at h; cases h
  | none => simp

/-- The planning invariant behind collision freedom: planned paths are
distinct keys of the owner map, which also holds the reserved manifest path. -/
def PlanInv (mp : Str) (st : PlanState) : Prop :=
  (st.planned.map (fun pf => pf.path)).Nodup ∧
  (∀ pf ∈ st.planned, (lookupOwner st.pathOwners pf.path).isSome = true) ∧
  (lookupOwner st.pathOwners mp).isSome = true ∧
  (∀ pf ∈ st.planned, pf.path ≠ mp)

theorem processDoc_inv (w : World σ) (opts : ExportOptions) (ext category : Str)
    (doc : DocSummary) (mp : Str) (st st' : PlanState) (s s' : ExpState σ)
    (h : processDoc w opts ext category doc st s = (.ok st', s'))
    (hinv : PlanInv mp st) : PlanInv mp st' := by
  unfold processDoc at h
  by_cases hseen : doc.id ∈ st.seen
  · simp only [if_pos hseen] at h
    rw [ExpM_pure_apply] at h
    injection h with h1 h2
    injection h1 with h1
    exact h1 ▸ hinv
  · simp only [if_neg hseen] at h
    obtain ⟨dr, s₁, hdr, h⟩ := bind_ok_decompose _ _ _ _ _ h
    obtain ⟨detail, raw⟩ := dr
    simp only [] at h
    rcases hB : BuildOutputPath w.lstat w.cwd opts.pathTemplate
        (docVars opts ext category detail (chooseSlug detail doc)) opts.outDir with e | filePath
    · rw [hB] at h
      unfold throwE at h
      simp at h
    · rw [hB] at h
      simp only [] at h
      rcases hL : lookupOwner st.pathOwners filePath with _ | existing
      · have hnone : lookupOwner st.pathOwners filePath = none := hL
        rw [hL] at h
        simp only [] at h
        rcases hR : renderContent w.reencodeJSON opts.format detail raw with e | content
        · rw [hR] at h
          unfold throwE at h
          simp at h
        · rw [hR] at h
          simp only [] at h
          rw [ExpM_pure_apply] at h
          injection h with h1 h2
          injection h1 with h1
          subst h1
          obtain ⟨hnd, hsome, hmp, hne⟩ := hinv
          refine ⟨?_, ?_, ?_, ?_⟩
          · simp only [List.map_append, List.map_cons, List.map_nil]
            rw [List.nodup_append]
            refine ⟨hnd, List.nodup_singleton _, ?_⟩
            intro p hp hq
            simp at hq
            obtain ⟨pf0, hpf0, hpath⟩ := List.mem_map.mp hp
            have := hsome pf0 hpf0
            rw [hpath, hq, hnone] at this
            cases this
          · intro pf hpf
            rcases List.mem_append.mp hpf with hold | hnew
            · obtain ⟨v, hv⟩ := Option.isSome_iff_exists.mp (hsome pf hold)
              rw [lookupOwner_append_of_some _ _ _ _ hv]
              rfl
            · have hpf2 : pf.path = filePath := by
                rw [List.mem_singleton.mp hnew]
              rw [hpf2, lookupOwner_append_self _ _ _ hnone]
              rfl
          · obtain ⟨v, hv⟩ := Option.isSome_iff_exists.mp hmp
            rw [lookupOwner_append_of_some _ _ _ _ hv]
            rfl
          · intro pf hpf
            rcases List.mem_append.mp hpf with hold | hnew
            · exact hne pf hold
            · rw [List.mem_singleton.mp hnew]
              intro e
              have hfm : filePath = mp := e
              rw [hfm] at hnone
              rw [hnone] at hmp
              cases hmp
      · rw [hL] at h
        simp only [] at h
        by_cases hres : existing = reservedManifestPathOwner <;>
          simp only [if_pos, if_neg, hres, if_true, if_false] at h <;>
          unfold throwE at h <;> simp at h

theorem processDocs_inv (w : World σ) (opts : ExportOptions) (ext category : Str)
    (docs : List DocSummary) (mp : Str) :
    ∀ (st st' : PlanState) (s s' : ExpState σ),
    processDocs w opts ext category docs st s = (.ok st', s') →
    PlanInv mp st → PlanInv mp st' := by
  induction docs with
  | nil =>
    intro st st' s s' h hinv
    unfold processDocs at h
    rw [ExpM_pure_apply] at h
    injection h with h1 h2
    injection h1 with h1
    exact h1 ▸ hinv
  | cons doc rest ih =>
    intro st st' s s' h hinv
    unfold processDocs at h
    obtain ⟨stm, s₁, h1, h2⟩ := bind_ok_decompose _ _ _ _ _ h
    exact ih stm st' s₁ s' h2 (processDoc_inv w opts ext category doc mp st stm s s₁ h1 hinv)

theorem pageLoop_inv (w : World σ) (opts : ExportOptions) (ext pvid category : Str)
    (fuel : Nat) (mp : Str) :
    ∀ (page : Nat) (st st' : PlanState) (s s' : ExpState σ),
    pageLoop w opts ext pvid category fuel page st s = (.ok st', s') →
    PlanInv mp st → PlanInv mp st' := by
  induction fuel with
  | zero =>
    intro page st st' s s' h hinv
    unfold pageLoop throwE at h
    simp at h
  | succ n ih =>
    intro page st st' s s' h hinv
    unfold pageLoop at h
    obtain ⟨docs, s₁, h1, h2⟩ := bind_ok_decompose _ _ _ _ _ h
    by_cases hd : docs = []
    · simp only [if_pos hd] at h2
      rw [ExpM_pure_apply] at h2
      injection h2 with h2 h3
      injection h2 with h2
      exact h2 ▸ hinv
    · simp only [if_neg hd] at h2
      obtain ⟨stm, s₂, h3, h4⟩ := bind_ok_decompose _ _ _ _ _ h2
      exact ih (page + 1) stm st' s₂ s' h4
        (processDocs_inv w opts ext category docs mp st stm s₁ s₂ h3 hinv)

theorem planCategories_inv (w : World σ) (opts : ExportOptions) (ext pvid : Str)
    (fuel : Nat) (cats : List Str) (mp : Str) :
    ∀ (st st' : PlanState) (s s' : ExpState σ),
    planCategories w opts ext pvid fuel cats st s = (.ok st', s') →
    PlanInv mp st → PlanInv mp st' := by
  induction cats with
  | nil =>
    intro st st' s s' h hinv
    unfold planCategories at h
    rw [ExpM_pure_apply] at h
    injection h with h1 h2
    injection h1 with h1
    exact h1 ▸ hinv
  | cons c rest ih =>
    intro st st' s s' h hinv
    unfold planCategories at h
    obtain ⟨stm, s₁, h1, h2⟩ := bind_ok_decompose _ _ _ _ _ h
    exact ih stm st' s₁ s' h2 (pageLoop_inv w opts ext pvid c fuel mp 1 st stm s s₁ h1 hinv)

theorem emit_apply (ev : Event) (s : ExpState σ) :
    emit (σ := σ) ev s = (.ok (), ⟨s.cs, s.events ++ [ev]⟩) := rfl

theorem cleanTargetsLoop_trace (w : World σ) (opts : ExportOptions) :
    ∀ (targets : List Str) (s : ExpState σ) (r : Except ExpErr Unit) (s' : ExpState σ),
    cleanTargetsLoop w opts targets s = (r, s') →
    ∃ Δ, s'.events = s.events ++ Δ ∧ writtenPaths Δ = [] := by
  intro targets
  induction targets with
  | nil =>
    intro s r s' h
    unfold cleanTargetsLoop at h
    rw [ExpM_pure_apply] at h
    injection h with h1 h2
    exact ⟨[], by simp [← h2], rfl⟩
  | cons target rest ih =>
    intro s r s' h
    unfold cleanTargetsLoop at h
    rcases hG : ensureNoSymlinkTraversal w.lstat opts.outDir target with e | u
    · rw [hG] at h
      simp only [] at h
      unfold throwE at h
      injection h with h1 h2
      exact ⟨[], by simp [← h2], rfl⟩
    · rw [hG] at h
      simp only [] at h
      rw [ExpM_bind_apply, emit_apply] at h
      simp only [] at h
      obtain ⟨Δ', hΔ', hw⟩ := ih ⟨s.cs, s.events ++ [Event.removeAll target]⟩ r s' h
      refine ⟨Event.removeAll target :: Δ', ?_, ?_⟩
      · rw [hΔ']
        simp
      · simpa [writtenPaths] using hw

/-- The mkdir/write event pairs of the write loop, in order. -/
def writeEvents : List PlannedFile → List Event
  | [] => []
  | pf :: rest =>
    .mkdirAll (pathDir pf.path) :: .writeFile pf.path pf.content :: writeEvents rest

theorem writtenPaths_writeEvents (pfs : List PlannedFile) :
    writtenPaths (writeEvents pfs) = pfs.map (fun pf => pf.path) := by
  induction pfs with
  | nil => rfl
  | cons pf rest ih =>
    simp only [writeEvents, writtenPaths, List.filterMap_cons] at ih ⊢
    rw [ih, List.map_cons]

theorem writePlanned_trace (w : World σ) (opts : ExportOptions) :
    ∀ (pfs : List PlannedFile) (s : ExpState σ) (items : List ManifestItem)
      (s' : ExpState σ),
    writePlanned w opts pfs s = (.ok items, s') →
    s'.events = s.events ++ writeEvents pfs := by
  intro pfs
  induction pfs with
  | nil =>
    intro s items s' h
    unfold writePlanned at h
    rw [ExpM_pure_apply] at h
    injection h with h1 h2
    simp [← h2, writeEvents]
  | cons pf rest ih =>
    intro s items s' h
    unfold writePlanned at h
    rcases hG : ensureNoSymlinkTraversal w.lstat opts.outDir pf.path with e | u
    · rw [hG] at h
      simp only [] at h
      unfold throwE at h
      simp at h
    · rw [hG] at h
      simp only [] at h
      rw [ExpM_bind_apply, emit_apply] at h
      simp only [] at h
      rw [ExpM_bind_apply, emit_apply] at h
      simp only [] at h
      obtain ⟨restItems, s₁, h1, h2⟩ := bind_ok_decompose _ _ _ _ _ h
      rw [ExpM_pure_apply] at h2
      injection h2 with h3 h4
      have := ih _ restItems s₁ h1
      rw [← h4, this]
      simp [writeEvents]

theorem writeManifest_trace (w : World σ) (opts : ExportOptions)
    (docs : List ManifestItem) (s : ExpState σ) (p : Str) (s' : ExpState σ)
    (h : writeManifest w opts docs s = (.ok p, s')) :
    p = manifestPathForOptions opts ∧
    ∃ c, s'.events = s.events ++
      [.mkdirAll (pathDir (manifestPathForOptions opts)),
       .writeFile (manifestPathForOptions opts) c] := by
  unfold writeManifest at h
  simp only [] at h
  rcases hG : ensureNoSymlinkTraversal w.lstat opts.outDir
      (manifestPathForOptions opts) with e | u
  · rw [hG] at h
    simp only [] at h
    unfold throwE at h
    simp at h
  · rw [hG] at h
    simp only [] at h
    rw [ExpM_bind_apply, emit_apply] at h
    simp only [] at h
    rw [ExpM_bind_apply, emit_apply] at h
    simp only [] at h
    rw [ExpM_pure_apply] at h
    injection h with h1 h2
    injection h1 with h1
    refine ⟨h1.symm, w.marshalManifest
      { provider := sanitizeSegment opts.name, ns := sanitizeSegment opts.ns,
        version := opts.version, format := opts.format, generatedAt := w.nowRFC3339,
        total := docs.length, docs := docs } ++ ['\n'], ?_⟩
    rw [← h2]
    simp

/-! ### C3: concrete collision runs and the collision-freedom theorem -/

/-- Options for the concrete C3 runs (default template, no clean). -/
def c3Options : ExportOptions :=
  { ns := str "hashicorp", name := str "aws", version := str "6.31.0",
    format := str "markdown", outDir := str "/out", categories := [str "resources"],
    pathTemplate := [], clean := false }

/-- The normalized options produced by validation for `c3Options`. -/
def c3NormOptions : ExportOptions :=
  { ns := str "hashicorp", name := str "aws", version := str "6.31.0",
    format := str "markdown", outDir := str "/out", categories := [str "resources"],
    pathTemplate := DefaultPathTemplate, clean := false }

/-- Two documents whose details render to the same output path. -/
def c3DocsCollide : List DocSummary :=
  [⟨str "1", str "resources", str "alpha", str "Alpha"⟩,
   ⟨str "2", str "resources", str "alpha", str "Alpha Two"⟩]

/-- Two documents with distinct slugs (the collision-free run). -/
def c3DocsOK : List DocSummary :=
  [⟨str "1", str "resources", str "alpha", str "Alpha"⟩,
   ⟨str "2", str "resources", str "beta", str "Beta"⟩]

/-- A detail response with the given id and slug. -/
def c3Detail (id slug : Str) : DetailResp :=
  ⟨id, ⟨str "resources", slug, str "T", str "body"⟩⟩

/-- A registry world serving one provider version and the given page-one
document listing; details parse from the raw bytes on the first attempt. -/
def c3WorldWith (docs : List DocSummary) : World Unit :=
  { unitWorld with
    getJSONVersions := fun _ s =>
      (.ok [⟨str "provider-versions", str "70800", str "6.31.0"⟩], s),
    getJSONDocs := fun p s =>
      (.ok (if p = docsListPath (str "70800") (str "resources") 1 then docs else []), s),
    getRaw := fun p s =>
      (.ok (if p = docDetailPath (str "1") then str "R1" else str "R2"), s),
    parseDetail := fun raw =>
      if raw = str "R1" then some (c3Detail (str "1") (str "alpha"))
      else if raw = str "R2" then
        some (c3Detail (str "2")
          (if docs = c3DocsCollide then str "alpha" else str "beta"))
      else none,
    marshalManifest := fun _ => str "MANIFEST",
    nowRFC3339 := str "2026-01-01T00:00:00Z" }

/-- Options whose template renders document slugs into the manifest's own
directory with a `.json` suffix. -/
def c3ManifestOptions : ExportOptions :=
  { c3Options with
    pathTemplate :=
      str "{out}/terraform/{namespace}/{provider}/{version}/docs/{slug}.json" }

/-- A world whose single document's slug sanitizes to `_manifest`, so its
rendered path equals the reserved manifest path. -/
def c3WorldManifest : World Unit :=
  { c3WorldWith c3DocsOK with
    parseDetail := fun raw =>
      if raw = str "R1" then some (c3Detail (str "1") (str "_manifest"))
      else none }

/-- The event trace of the colliding run: requests only, no mutation. -/
def c3CollideEvents : List Event :=
  [.netGetJSON (versionsPath (str "hashicorp") (str "aws")),
   .netGetJSON (docsListPath (str "70800") (str "resources") 1),
   .netGet (docDetailPath (str "1")),
   .netGet (docDetailPath (str "2"))]

/-- The event trace of the manifest-colliding run: requests only. -/
def c3ManifestEvents : List Event :=
  [.netGetJSON (versionsPath (str "hashicorp") (str "aws")),
   .netGetJSON (docsListPath (str "70800") (str "resources") 1),
   .netGet (docDetailPath (str "1"))]

/-- The collision-free run's final event trace. -/
def c3OkEvents : List Event :=
  [.netGetJSON (versionsPath (str "hashicorp") (str "aws")),
   .netGetJSON (docsListPath (str "70800") (str "resources") 1),
   .netGet (docDetailPath (str "1")),
   .netGet (docDetailPath (str "2")),
   .netGetJSON (docsListPath (str "70800") (str "resources") 2),
   .mkdirAll (str "/out/terraform/hashicorp/aws/6.31.0/docs/resources"),
   .writeFile (str "/out/terraform/hashicorp/aws/6.31.0/docs/resources/alpha.md") (str "body"),
   .mkdirAll (str "/out/terraform/hashicorp/aws/6.31.0/docs/resources"),
   .writeFile (str "/out/terraform/hashicorp/aws/6.31.0/docs/resources/beta.md") (str "body"),
   .mkdirAll (str "/out/terraform/hashicorp/aws/6.31.0/docs"),
   .writeFile (str "/out/terraform/hashicorp/aws/6.31.0/docs/_manifest.json")
     (str "MANIFEST" ++ ['\n'])]

/-- The collision-free run's summary. -/
def c3OkSummary : ExportSummary :=
  { provider := str "aws", version := str "6.31.0", outDir := str "/out",
    written := 2, manifest := str "/out/terraform/hashicorp/aws/6.31.0/docs/_manifest.json" }

/-- The trace contribution of the write phase plus the manifest write. -/
theorem exportTail_trace (w : World σ) (opts : ExportOptions) (planned : List PlannedFile)
    (s₄ s' : ExpState σ) (sum : ExportSummary)
    (h : (writePlanned w opts planned >>= fun manifestDocs =>
          writeManifest w opts manifestDocs >>= fun manifestPath =>
          pure { provider := sanitizeSegment opts.name, version := opts.version,
                 outDir := opts.outDir, written := planned.length,
                 manifest := toSlash (pathJoin2 opts.outDir
                   ((pathRel opts.outDir manifestPath).getD manifestPath)) })
        s₄ = (.ok sum, s')) :
    ∃ c, s'.events = s₄.events ++ writeEvents planned ++
      [.mkdirAll (pathDir (manifestPathForOptions opts)),
       .writeFile (manifestPathForOptions opts) c] := by
  obtain ⟨mdocs, s₅, h5, h⟩ := bind_ok_decompose _ _ _ _ _ h
  have h5t := writePlanned_trace w opts _ _ _ _ h5
  try simp only [] at h
  obtain ⟨mpath, s₆, h6, h⟩ := bind_ok_decompose _ _ _ _ _ h
  obtain ⟨hmp, c, h6t⟩ := writeManifest_trace w opts mdocs s₅ mpath s₆ h6
  try simp only [] at h
  rw [ExpM_pure_apply] at h
  injection h with hE hF
  refine ⟨c, ?_⟩
  rw [← hF, h6t, h5t]

set_option maxRecDepth 100000 in
/-- C3: the owner map is seeded with the reserved manifest path, so in every
successful run no two planned files share an output path and none equals the
manifest path: the `writeFile` trace of a successful `ExportDocs` run is the
duplicate-free planned paths followed by the manifest path.  Second conjunct:
two documents rendering to the same path abort the run with the collision
error naming both document IDs, before any filesystem mutation (the trace is
requests only).  Third conjunct: a document rendering to the reserved manifest
path aborts with the reserved-manifest collision error, again with no
mutation. -/
theorem c3_collision_freedom :
    (∀ (σ : Type) (w : World σ) (fuel : Nat) (opts0 opts : ExportOptions) (ext : Str)
        (sum : ExportSummary) (s s' : ExpState σ),
        prepareExportOptions w.lstat w.cwd opts0 = .ok (opts, ext) →
        ExportDocs w fuel opts0 s = (.ok sum, s') →
        ∃ ps : List Str,
          writtenPaths s'.events =
            writtenPaths s.events ++ ps ++ [manifestPathForOptions opts] ∧
          ps.Nodup ∧ manifestPathForOptions opts ∉ ps) ∧
    (ExportDocs (c3WorldWith c3DocsCollide) 3 c3Options ⟨(), []⟩ =
        (.error (.validation (str "path collision detected in --path-template: /out/terraform/hashicorp/aws/6.31.0/docs/resources/alpha.md (doc_id=1 conflicts with doc_id=2)")),
         ⟨(), c3CollideEvents⟩) ∧
      writtenPaths c3CollideEvents = []) ∧
    (ExportDocs c3WorldManifest 3 c3ManifestOptions ⟨(), []⟩ =
        (.error (.validation (str "path collision detected in --path-template: /out/terraform/hashicorp/aws/6.31.0/docs/_manifest.json conflicts with reserved manifest path")),
         ⟨(), c3ManifestEvents⟩) ∧
      writtenPaths c3ManifestEvents = []) := by
  refine ⟨?_, ⟨by rfl, rfl⟩, ⟨by rfl, rfl⟩⟩
  intro σ w fuel opts0 opts ext sum s s' hprep hrun
  unfold ExportDocs at hrun
  obtain ⟨pe, s₁, h1, hrun⟩ := bind_ok_decompose _ _ _ _ _ hrun
  unfold expOfExcept at h1
  injection h1 with hA hB
  rw [hprep] at hA
  injection hA with hA
  subst hA
  subst hB
  try simp only [] at hrun
  obtain ⟨pvid, s₂, h2, hrun⟩ := bind_ok_decompose _ _ _ _ _ hrun
  obtain ⟨Δ₁, hΔ₁, hn₁⟩ := netOnly_resolveProviderVersionID w _ _ _ s _ s₂ h2
  try simp only [] at hrun
  obtain ⟨stF, s₃, h3, hrun⟩ := bind_ok_decompose _ _ _ _ _ hrun
  obtain ⟨Δ₂, hΔ₂, hn₂⟩ := netOnly_planCategories w _ _ _ fuel _ _ s₂ _ s₃ h3
  have hinv : PlanInv (manifestPathForOptions opts) stF := by
    refine planCategories_inv w _ _ _ fuel _ (manifestPathForOptions opts) _ _ _ _ h3 ?_
    refine ⟨by simp, ?_, ?_, ?_⟩
    · intro pf hpf
      cases hpf
    · simp [lookupOwner, List.find?]
    · intro pf hpf
      cases hpf
  try simp only [] at hrun
  have hfin : ∃ Δ₃ c, writtenPaths Δ₃ = [] ∧
      s'.events = s₃.events ++ Δ₃ ++ writeEvents (sortPlanned stF.planned) ++
        [.mkdirAll (pathDir (manifestPathForOptions opts)),
         .writeFile (manifestPathForOptions opts) c] := by
    by_cases hcl : opts.clean = true
    · rw [if_pos hcl] at hrun
      obtain ⟨targets, s₃x, h4a, hrun⟩ := bind_ok_decompose _ _ _ _ _ hrun
      unfold expOfExcept at h4a
      injection h4a with hC hD
      subst hD
      try simp only [] at hrun
      obtain ⟨u, s₄, h4b, hrun⟩ := bind_ok_decompose _ _ _ _ _ hrun
      obtain ⟨Δ₃, hΔ₃e, hw₃⟩ := cleanTargetsLoop_trace w opts targets _ _ _ h4b
      obtain ⟨c, hc⟩ := exportTail_trace w opts (sortPlanned stF.planned) s₄ s' sum hrun
      refine ⟨Δ₃, c, hw₃, ?_⟩
      rw [hc, hΔ₃e]
    · rw [if_neg hcl] at hrun
      obtain ⟨u, s₄, h4b, hrun⟩ := bind_ok_decompose _ _ _ _ _ hrun
      rw [ExpM_pure_apply] at h4b
      injection h4b with hC hD
      obtain ⟨c, hc⟩ := exportTail_trace w opts (sortPlanned stF.planned) s₄ s' sum hrun
      refine ⟨[], c, rfl, ?_⟩
      rw [hc, ← hD]
      simp
  obtain ⟨Δ₃, c, hw₃, hs'⟩ := hfin
  have hp := (List.perm_insertionSort (fun a b : PlannedFile => a.item.path ≤ b.item.path)
    stF.planned).map (fun pf => pf.path)
  obtain ⟨hnd, _, _, hne⟩ := hinv
  refine ⟨(sortPlanned stF.planned).map (fun pf => pf.path), ?_, ?_, ?_⟩
  · rw [hs', hΔ₂, hΔ₁]
    rw [writtenPaths_append, writtenPaths_append, writtenPaths_append,
      writtenPaths_append, writtenPaths_append]
    rw [writtenPaths_net Δ₁ hn₁, writtenPaths_net Δ₂ hn₂, hw₃, writtenPaths_writeEvents]
    have hm2 : writtenPaths [Event.mkdirAll (pathDir (manifestPathForOptions opts)),
        Event.writeFile (manifestPathForOptions opts) c] = [manifestPathForOptions opts] := rfl
    rw [hm2]
    simp [sortPlanned]
  · exact hp.nodup_iff.mpr hnd
  · intro hmem
    have hmem2 := hp.mem_iff.mp hmem
    obtain ⟨pf, hpf, hpath⟩ := List.mem_map.mp hmem2
    exact hne pf hpf hpath

set_option maxRecDepth 100000 in
/-- Witness for C3: the concrete collision-free run's write trace is its two
document paths followed by the manifest path, with no duplicates. -/
theorem c3_collision_freedom_witness :
    ∃ ps : List Str,
      writtenPaths c3OkEvents = writtenPaths ([] : List Event) ++ ps ++
        [manifestPathForOptions c3NormOptions] ∧
      ps.Nodup ∧ manifestPathForOptions c3NormOptions ∉ ps :=
  c3_collision_freedom.1 Unit (c3WorldWith c3DocsOK) 3 c3Options c3NormOptions (str "md")
    c3OkSummary ⟨(), []⟩ ⟨(), c3OkEvents⟩ (by rfl) (by rfl)

/-- Options whose template root resolves to the output root itself. -/
def c4BadOptions : ExportOptions :=
  { c3Options with pathTemplate := str "{out}/{slug}.{ext}", clean := true }

/-- Normalized options with a `custom` template subtree and clean set. -/
def c4OkOptions : ExportOptions :=
  { c3NormOptions with
    pathTemplate := str "{out}/custom/{category}/{slug}.{ext}",
    clean := true }

/-- The derived clean targets for `c4OkOptions`, deeper path first. -/
def c4OkTargets : List Str :=
  [str "/out/terraform/hashicorp/aws/6.31.0/docs", str "/out/custom"]

/-- The event trace of the too-broad-clean run: requests only. -/
def c4Events : List Event :=
  [.netGetJSON (versionsPath (str "hashicorp") (str "aws")),
   .netGetJSON (docsListPath (str "70800") (str "resources") 1),
   .netGet (docDetailPath (str "1")),
   .netGet (docDetailPath (str "2")),
   .netGetJSON (docsListPath (str "70800") (str "resources") 2)]

theorem isFsMutation_false_of_isNet (ev : Event) (h : ev.isNet = true) :
    ev.isFsMutation = false := by
  cases ev <;> simp [Event.isNet, Event.isFsMutation] at h ⊢

set_option maxRecDepth 100000 in
/-- C4: a successful clean-target derivation yields exactly the template root
(the static prefix of the path template up to its first placeholder not
resolvable from the options) and the namespace/provider/version-scoped
manifest root, with the output root never among the targets (first conjunct);
if either root equals the output root, derivation fails with the too-broad
validation error (second conjunct); an export run whose clean-target
derivation fails returns that error having performed no filesystem mutation
(third conjunct, with a concrete run as the fourth). -/
theorem c4_clean_targets :
    (∀ (cwd : Str) (opts : ExportOptions) (ext : Str) (ts : List Str),
        deriveCleanTargets cwd opts ext = .ok ts →
        ∃ tr, deriveTemplateRoot cwd opts ext = .ok tr ∧
          (∀ x, x ∈ ts ↔ (x = tr ∨ x = manifestRootForOptions opts)) ∧
          opts.outDir ∉ ts) ∧
    (∀ (cwd : Str) (opts : ExportOptions) (ext : Str) (tr : Str),
        deriveTemplateRoot cwd opts ext = .ok tr →
        (tr = opts.outDir ∨ manifestRootForOptions opts = opts.outDir) →
        deriveCleanTargets cwd opts ext =
          .error (.validation
            (str "--clean template resolves to --out-dir root, which is too broad"))) ∧
    (∀ (σ : Type) (w : World σ) (fuel : Nat) (opts0 opts : ExportOptions) (ext : Str)
        (s s₂ s₃ : ExpState σ) (pvid : Str) (stF : PlanState) (e : ExpErr),
        prepareExportOptions w.lstat w.cwd opts0 = .ok (opts, ext) →
        opts.clean = true →
        resolveProviderVersionID w opts.ns opts.name opts.version s = (.ok pvid, s₂) →
        planCategories w opts ext pvid fuel opts.categories
          { seen := [], planned := [],
            pathOwners := [(manifestPathForOptions opts, reservedManifestPathOwner)] } s₂ =
          (.ok stF, s₃) →
        deriveCleanTargets w.cwd opts ext = .error e →
        ExportDocs w fuel opts0 s = (.error e, s₃) ∧
        ∃ Δ, s₃.events = s.events ++ Δ ∧ ∀ ev ∈ Δ, ev.isFsMutation = false) ∧
    (ExportDocs (c3WorldWith c3DocsOK) 3 c4BadOptions ⟨(), []⟩ =
        (.error (.validation
          (str "--clean template resolves to --out-dir root, which is too broad")),
         ⟨(), c4Events⟩) ∧
      ∀ ev ∈ c4Events, ev.isFsMutation = false) := by
  refine ⟨?_, ?_, ?_, ⟨by rfl, by decide⟩⟩
  · intro cwd opts ext ts h
    unfold deriveCleanTargets at h
    rcases hT : deriveTemplateRoot cwd opts ext with e | tr
    · rw [hT] at h
      cases h
    · rw [hT] at h
      simp only [] at h
      by_cases heq : tr = manifestRootForOptions opts
      · rw [if_pos heq] at h
        by_cases hmem : opts.outDir ∈ [tr]
        · rw [if_pos hmem] at h
          cases h
        · rw [if_neg hmem] at h
          injection h with h
          refine ⟨tr, rfl, ?_, ?_⟩
          · intro x
            rw [← h]
            have hs : List.insertionSort (fun a b : Str => b.length ≤ a.length) [tr] =
                [tr] := rfl
            rw [hs]
            simp [heq]
          · rw [← h]
            intro hx
            exact hmem hx
      · rw [if_neg heq] at h
        by_cases hmem : opts.outDir ∈ [tr, manifestRootForOptions opts]
        · rw [if_pos hmem] at h
          cases h
        · rw [if_neg hmem] at h
          injection h with h
          have hperm := List.perm_insertionSort (fun a b : Str => b.length ≤ a.length)
            [tr, manifestRootForOptions opts]
          refine ⟨tr, rfl, ?_, ?_⟩
          · intro x
            rw [← h, hperm.mem_iff]
            simp
          · rw [← h]
            intro hx
            exact hmem (hperm.subset hx)
  · intro cwd opts ext tr hT hor
    unfold deriveCleanTargets
    rw [hT]
    simp only []
    by_cases heq : tr = manifestRootForOptions opts
    · rw [if_pos heq]
      have hmem : opts.outDir ∈ [tr] := by
        rcases hor with h | h
        · simp [h]
        · simp [heq, h]
      rw [if_pos hmem]
    · rw [if_neg heq]
      have hmem : opts.outDir ∈ [tr, manifestRootForOptions opts] := by
        rcases hor with h | h
        · simp [h]
        · simp [h]
      rw [if_pos hmem]
  · intro σ w fuel opts0 opts ext s s₂ s₃ pvid stF e hprep hcl hres hplan hderive
    constructor
    · unfold ExportDocs
      rw [ExpM_bind_apply]
      have h1 : expOfExcept (σ := σ) (prepareExportOptions w.lstat w.cwd opts0) s =
          (.ok (opts, ext), s) := by
        unfold expOfExcept
        rw [hprep]
      rw [h1]
      simp only []
      rw [ExpM_bind_apply, hres]
      simp only []
      rw [ExpM_bind_apply, hplan]
      simp only []
      rw [if_pos hcl]
      rw [ExpM_bind_apply]
      have h2 : expOfExcept (σ := σ) (deriveCleanTargets w.cwd opts ext) s₃ =
          (.error e, s₃) := by
        unfold expOfExcept
        rw [hderive]
      rw [h2]
    · obtain ⟨Δ₁, hΔ₁, hn₁⟩ := netOnly_resolveProviderVersionID w _ _ _ s _ s₂ hres
      obtain ⟨Δ₂, hΔ₂, hn₂⟩ := netOnly_planCategories w _ _ _ fuel _ _ s₂ _ s₃ hplan
      refine ⟨Δ₁ ++ Δ₂, by rw [hΔ₂, hΔ₁]; simp, ?_⟩
      intro ev hev
      rcases List.mem_append.mp hev with h | h
      · exact isFsMutation_false_of_isNet ev (hn₁ ev h)
      · exact isFsMutation_false_of_isNet ev (hn₂ ev h)

set_option maxRecDepth 10000 in
/-- Witness for C4: the custom-subtree options derive exactly the custom root
and the manifest root, excluding the output root. -/
theorem c4_clean_targets_witness :
    ∃ tr, deriveTemplateRoot (str "/cwd") c4OkOptions (str "md") = .ok tr ∧
      (∀ x, x ∈ c4OkTargets ↔ (x = tr ∨ x = manifestRootForOptions c4OkOptions)) ∧
      c4OkOptions.outDir ∉ c4OkTargets :=
  c4_clean_targets.1 (str "/cwd") c4OkOptions (str "md") c4OkTargets (by rfl)

/-! ### C8: the registry client (client.go `get`/`GetJSON`) and detail recovery -/

/-- The client-visible state: the HTTP cache (per URL) and the queue of
pending network responses per URL (each network round trip consumes one). -/
structure RegState where
  cache : Str → Option Str
  resps : Str → List (Except Str Str)

/-- `Client.get` (client.go) with `retry = 0`: consult the cache only when
`readCache` is set (reporting `fromCache`), otherwise perform the network
round trip, storing a successful body in the cache. -/
def clientGet (url : Str) (readCache : Bool) (st : RegState) :
    Except Str (Str × Bool) × RegState :=
  match (if readCache then st.cache url else none) with
  | some b => (.ok (b, true), st)
  | none =>
    match st.resps url with
    | [] => (.error (str "unexpected error in get request"), st)
    | .error e :: rest =>
      (.error e, { st with resps := fun u => if u = url then rest else st.resps u })
    | .ok body :: rest =>
      (.ok (body, false),
       { cache := fun u => if u = url then some body else st.cache u,
         resps := fun u => if u = url then rest else st.resps u })

/-- `Client.GetJSON` (client.go): read through the cache; when the payload is
undecodable and it came from the cache, treat it as a miss and refetch once
with the cache bypassed. -/
def clientGetJSON {α : Type} (parse : Str → Option α) (url : Str) (st : RegState) :
    Except Str α × RegState :=
  match clientGet url true st with
  | (.error e, st₁) => (.error e, st₁)
  | (.ok (b, fromCache), st₁) =>
    match parse b with
    | some v => (.ok v, st₁)
    | none =>
      if fromCache then
        match clientGet url false st₁ with
        | (.error e, st₂) => (.error e, st₂)
        | (.ok (fresh, _), st₂) =>
          match parse fresh with
          | some v => (.ok v, st₂)
          | none => (.error (str "failed to decode json response"), st₂)
      else (.error (str "failed to decode json response"), st₁)

/-- `Client.Get` (client.go): raw bytes, read through the cache. -/
def clientGetBody (url : Str) (st : RegState) : Except Str Str × RegState :=
  match clientGet url true st with
  | (.error e, st₁) => (.error e, st₁)
  | (.ok (b, _), st₁) => (.ok b, st₁)

/-- The decoder of the C8 witness world: only `GOOD` decodes. -/
def regParse : Str → Option DetailResp := fun b =>
  if b = str "GOOD" then some (c3Detail (str "1") (str "alpha")) else none

/-- A world wired to the modelled client, so the fetcher-level recovery runs
against the client-level cache bypass. -/
def w8 : World RegState :=
  { getJSONVersions := fun _ st => (.error (str "unused"), st),
    getJSONDocs := fun _ st => (.error (str "unused"), st),
    getJSONDetail := fun p st => clientGetJSON regParse p st,
    getRaw := fun p st => clientGetBody p st,
    parseDetail := regParse,
    reencodeJSON := fun _ => none,
    marshalManifest := fun _ => [],
    nowRFC3339 := [],
    lstat := fun _ => .notExist,
    cwd := str "/cwd" }

/-- The detail URL of the C8 witness. -/
def reg8Path : Str := docDetailPath (str "1")

/-- Initial client state: a corrupt cached payload and one pending good
network response. -/
def reg8Init : RegState :=
  { cache := fun u => if u = reg8Path then some (str "CORRUPT") else none,
    resps := fun u => if u = reg8Path then [.ok (str "GOOD")] else [] }

/-- Client state after the recovery: the response consumed and the cache
refreshed with the good payload. -/
def reg8After : RegState :=
  { cache := fun u => if u = reg8Path then some (str "GOOD") else reg8Init.cache u,
    resps := fun u => if u = reg8Path then [] else reg8Init.resps u }

/-- C8: a raw detail response that fails to parse triggers exactly one
recovery fetch through `GetJSON` (the traces of the three cases show zero or
exactly one `netGetJSON` event and never more): parse success uses the
original bytes with no recovery (first conjunct); a failing recovery surfaces
its error as-is (second); a successful recovery supplies the structured
fields and the raw bytes are re-read after it, not taken from the corrupt
original (third).  Fourth conjunct, client-level (client.go `GetJSON`): an
undecodable cached payload is treated as a miss — the refetch bypasses the
cache, consumes a network response despite the cache hit, returns the fresh
payload and refreshes the cache with it. -/
theorem c8_detail_recovery :
    (∀ (σ : Type) (w : World σ) (docID : Str) (s : ExpState σ) (raw : Str) (cs₁ : σ)
        (detail : DetailResp),
        w.getRaw (docDetailPath docID) s.cs = (.ok raw, cs₁) →
        w.parseDetail raw = some detail →
        getProviderDocDetail w docID s =
          (.ok (detail, raw), ⟨cs₁, s.events ++ [.netGet (docDetailPath docID)]⟩)) ∧
    (∀ (σ : Type) (w : World σ) (docID : Str) (s : ExpState σ) (raw : Str) (cs₁ cs₂ : σ)
        (e : Str),
        w.getRaw (docDetailPath docID) s.cs = (.ok raw, cs₁) →
        w.parseDetail raw = none →
        w.getJSONDetail (docDetailPath docID) cs₁ = (.error e, cs₂) →
        getProviderDocDetail w docID s =
          (.error (.clientErr e),
           ⟨cs₂, s.events ++ [.netGet (docDetailPath docID),
                              .netGetJSON (docDetailPath docID)]⟩)) ∧
    (∀ (σ : Type) (w : World σ) (docID : Str) (s : ExpState σ) (raw raw2 : Str)
        (cs₁ cs₂ cs₃ : σ) (detail : DetailResp),
        w.getRaw (docDetailPath docID) s.cs = (.ok raw, cs₁) →
        w.parseDetail raw = none →
        w.getJSONDetail (docDetailPath docID) cs₁ = (.ok detail, cs₂) →
        w.getRaw (docDetailPath docID) cs₂ = (.ok raw2, cs₃) →
        getProviderDocDetail w docID s =
          (.ok (detail, raw2),
           ⟨cs₃, s.events ++ [.netGet (docDetailPath docID),
                              .netGetJSON (docDetailPath docID),
                              .netGet (docDetailPath docID)]⟩)) ∧
    (∀ (α : Type) (parse : Str → Option α) (url : Str) (st : RegState) (b r : Str)
        (rest : List (Except Str Str)) (v : α),
        st.cache url = some b → parse b = none →
        st.resps url = .ok r :: rest → parse r = some v →
        ∃ st', clientGetJSON parse url st = (.ok v, st') ∧
          st'.cache url = some r ∧ st'.resps url = rest) := by
  refine ⟨?_, ?_, ?_, ?_⟩
  · intro σ w docID s raw cs₁ detail hraw hp
    unfold getProviderDocDetail
    rw [ExpM_bind_apply]
    have h1 : callGetRaw w (docDetailPath docID) s =
        (.ok raw, ⟨cs₁, s.events ++ [.netGet (docDetailPath docID)]⟩) := by
      unfold callGetRaw
      rw [ExpM_bind_apply, emit_apply]
      simp only []
      unfold liftClient
      simp only []
      rw [hraw]
    rw [h1]
    simp only []
    rw [hp]
    rfl
  · intro σ w docID s raw cs₁ cs₂ e hraw hp hj
    unfold getProviderDocDetail
    rw [ExpM_bind_apply]
    have h1 : callGetRaw w (docDetailPath docID) s =
        (.ok raw, ⟨cs₁, s.events ++ [.netGet (docDetailPath docID)]⟩) := by
      unfold callGetRaw
      rw [ExpM_bind_apply, emit_apply]
      simp only []
      unfold liftClient
      simp only []
      rw [hraw]
    rw [h1]
    simp only []
    rw [hp]
    simp only []
    rw [ExpM_bind_apply]
    have h2 : callGetJSONDetail w (docDetailPath docID)
        ⟨cs₁, s.events ++ [.netGet (docDetailPath docID)]⟩ =
        (.error (.clientErr e),
         ⟨cs₂, s.events ++ [.netGet (docDetailPath docID),
                            .netGetJSON (docDetailPath docID)]⟩) := by
      unfold callGetJSONDetail
      rw [ExpM_bind_apply, emit_apply]
      simp only []
      unfold liftClient
      simp only []
      rw [hj]
      simp
    rw [h2]
  · intro σ w docID s raw raw2 cs₁ cs₂ cs₃ detail hraw hp hj hr2
    unfold getProviderDocDetail
    rw [ExpM_bind_apply]
    have h1 : callGetRaw w (docDetailPath docID) s =
        (.ok raw, ⟨cs₁, s.events ++ [.netGet (docDetailPath docID)]⟩) := by
      unfold callGetRaw
      rw [ExpM_bind_apply, emit_apply]
      simp only []
      unfold liftClient
      simp only []
      rw [hraw]
    rw [h1]
    simp only []
    rw [hp]
    simp only []
    rw [ExpM_bind_apply]
    have h2 : callGetJSONDetail w (docDetailPath docID)
        ⟨cs₁, s.events ++ [.netGet (docDetailPath docID)]⟩ =
        (.ok detail,
         ⟨cs₂, s.events ++ [.netGet (docDetailPath docID),
                            .netGetJSON (docDetailPath docID)]⟩) := by
      unfold callGetJSONDetail
      rw [ExpM_bind_apply, emit_apply]
      simp only []
      unfold liftClient
      simp only []
      rw [hj]
      simp
    rw [h2]
    simp only []
    rw [ExpM_bind_apply]
    have h3 : callGetRaw w (docDetailPath docID)
        ⟨cs₂, s.events ++ [.netGet (docDetailPath docID),
                           .netGetJSON (docDetailPath docID)]⟩ =
        (.ok raw2,
         ⟨cs₃, s.events ++ [.netGet (docDetailPath docID),
                            .netGetJSON (docDetailPath docID),
                            .netGet (docDetailPath docID)]⟩) := by
      unfold callGetRaw
      rw [ExpM_bind_apply, emit_apply]
      simp only []
      unfold liftClient
      simp only []
      rw [hr2]
      simp
    rw [h3]
    rfl
  · intro α parse url st b r rest v hc hp hres hp2
    unfold clientGetJSON
    unfold clientGet
    simp only [if_true, if_neg]
    rw [hc]
    simp only []
    rw [hp]
    simp only [if_true]
    rw [hres]
    simp only []
    rw [if_neg (by decide : ¬ (false = true))]
    simp only []
    rw [hp2]
    refine ⟨_, rfl, ?_, ?_⟩ <;> simp

set_option maxRecDepth 10000 in
/-- Witness for C8: over the modelled client with a corrupt cache entry, the
fetch recovers through exactly one `GetJSON`, returns the re-read good bytes,
and leaves the cache refreshed. -/
theorem c8_detail_recovery_witness :
    getProviderDocDetail w8 (str "1") ⟨reg8Init, []⟩ =
      (.ok (c3Detail (str "1") (str "alpha"), str "GOOD"),
       ⟨reg8After, [] ++ [.netGet (docDetailPath (str "1")),
                          .netGetJSON (docDetailPath (str "1")),
                          .netGet (docDetailPath (str "1"))]⟩) :=
  c8_detail_recovery.2.2.1 RegState w8 (str "1") ⟨reg8Init, []⟩
    (str "CORRUPT") (str "GOOD") reg8Init reg8After reg8After
    (c3Detail (str "1") (str "alpha")) (by rfl) (by rfl) (by rfl) (by rfl)
